import Mathlib

/-!
BigNum (bignum.h): arbitrary-precision signed decimal integers.

A shallow embedding of `src/bignum.h`.

* `std::vector<uint8_t>` is a `List Nat` (least-significant digit first); every
  arithmetic result that the source stores into a `uint8_t` is reduced with `u8`
  (`% 256`).
* `std::string` is a `List Char`.
* `int64_t` is an `Int`; the one place where signed overflow can occur
  (`n *= -1`) is reduced with `wrapInt64` (two's complement wrap-around).
* `size_t` counters are `Nat`; every subtraction on them in the source is guarded
  so that it never goes below zero.
* Exceptions are values of `Error` in the `Except` monad: `std::invalid_argument`
  is `invalidArgument`, the `std::out_of_range` of `.at` is `outOfRange`, the
  modulus by an empty vector's size is `divisionByZero`.
* `while` loops take a fuel argument and return `outOfFuel` when it is used up;
  counted `for` loops are folds over `List.range` or structural recursions.
-/

set_option linter.unusedVariables false
set_option linter.unusedTactic false

namespace Bignum

/-! ## Data model -/

/-- What an operation can raise. -/
inductive Error where
  | invalidArgument
  | outOfRange
  | divisionByZero
  | outOfFuel
  deriving DecidableEq, Repr

instance instDecidableEqExcept {ε α : Type} [DecidableEq ε] [DecidableEq α] :
    DecidableEq (Except ε α)
  | .ok a, .ok b =>
    if h : a = b then isTrue (by rw [h]) else isFalse (fun h2 => h (by cases h2; rfl))
  | .error a, .error b =>
    if h : a = b then isTrue (by rw [h]) else isFalse (fun h2 => h (by cases h2; rfl))
  | .ok _, .error _ => isFalse (fun h => by cases h)
  | .error _, .ok _ => isFalse (fun h => by cases h)

/-- The class `BigNum`: `_value` holds the decimal digits, least significant first. -/
structure BigNum where
  _value : List Nat
  isNegative : Bool
  deriving DecidableEq, Repr

/-- Conversion of an arithmetic result to `uint8_t`. -/
def u8 (n : Nat) : Nat := n % 256

/-- Two's complement wrap-around of a 64-bit signed result. -/
def wrapInt64 (x : Int) : Int := (x + 2 ^ 63) % 2 ^ 64 - 2 ^ 63

/-- Bounds-checked element access `vector.at(pos)`. -/
def vecAt (v : List Nat) (pos : Nat) : Except Error Nat :=
  match v[pos]? with
  | some x => .ok x
  | none => .error .outOfRange

/-- Bounds-checked character access `str.at(pos)`. -/
def strAt (str : List Char) (pos : Nat) : Except Error Char :=
  match str[pos]? with
  | some c => .ok c
  | none => .error .outOfRange

/-- The function `std::isdigit` in the "C" locale. -/
def isdigit (c : Char) : Bool := decide (48 ≤ c.toNat ∧ c.toNat ≤ 57)

/-! ## Normalisation: `deleteZeroPrefix` and the private constructor -/

/-- The loop `while (!vector.empty() && vector.at(vector.size() - 1) == 0) vector.pop_back();` -/
def deleteZeroPrefixLoop : Nat → List Nat → Except Error (List Nat)
  | 0, _ => .error .outOfFuel
  | fuel + 1, vector =>
    if vector.isEmpty then .ok vector
    else do
      let top ← vecAt vector (vector.length - 1)
      if top = 0 then deleteZeroPrefixLoop fuel vector.dropLast
      else .ok vector

/-- The member function `deleteZeroPrefix`. -/
def deleteZeroPrefix (fuel : Nat) (vector : List Nat) : Except Error (List Nat) := do
  let vector ← deleteZeroPrefixLoop fuel vector
  if vector.isEmpty then .ok (vector ++ [0]) else .ok vector

/-- The private constructor `BigNum(std::vector<uint8_t> value, bool isNeg)`. -/
def ofVector (fuel : Nat) (value : List Nat) (isNeg : Bool) : Except Error BigNum := do
  let value ← deleteZeroPrefix fuel value
  .ok { _value := value, isNegative := isNeg }

/-! ## Constructors -/

/-- The loop `while (n > 0) { _value.push_back(n % 10); n /= 10; }` of `BigNum(int64_t)`. -/
def fromIntegerLoop : Nat → Int → List Nat → Except Error (List Nat)
  | 0, _, _ => .error .outOfFuel
  | fuel + 1, n, value =>
    if n > 0 then
      fromIntegerLoop fuel (n.tdiv 10) (value ++ [((n.tmod 10) % 256).toNat])
    else .ok value

/-- The constructor `BigNum(int64_t n)`. -/
def fromInteger (fuel : Nat) (n : Int) : Except Error BigNum :=
  let isNegative := decide (n < 0)
  if n = 0 then .ok { _value := [0], isNegative := isNegative }
  else do
    let n := if isNegative then wrapInt64 (n * -1) else n
    let value ← fromIntegerLoop fuel n []
    .ok { _value := value, isNegative := isNegative }

/-- The digit loop of `BigNum(const std::string&)`, reading from the last character down. -/
def parseLoop : Nat → List Char → Bool → Nat → List Nat → Except Error (List Nat)
  | 0, _, _, _, _ => .error .outOfFuel
  | fuel + 1, str, hasSign, pos, value =>
    if pos ≥ (if hasSign then 1 else 0) then do
      let c ← strAt str pos
      if !isdigit c then .error .invalidArgument
      else
        let value := value ++ [u8 (c.toNat - 48)]
        if pos > 0 then parseLoop fuel str hasSign (pos - 1) value
        else .ok value
    else .ok value

/-- The constructor `BigNum(const std::string& str)`. -/
def fromString (fuel : Nat) (str : List Char) : Except Error BigNum :=
  if str.isEmpty then .error .invalidArgument
  else do
    let hasSign := false
    let isNegative := false
    let c ← strAt str 0
    let hasSign := if c = '+' then true else hasSign
    let c ← strAt str 0
    let hasSign := if c = '-' then true else hasSign
    let isNegative := if c = '-' then true else isNegative
    if hasSign && str.length = 1 then .error .invalidArgument
    else do
      let value ← parseLoop fuel str hasSign (str.length - 1) []
      let value ← deleteZeroPrefix fuel value
      if isNegative && value.length = 1 then do
        let d ← vecAt value 0
        if d = 0 then .error .invalidArgument
        else .ok { _value := value, isNegative := isNegative }
      else .ok { _value := value, isNegative := isNegative }

/-! ## Comparison -/

/-- The loop of `operator==`, over `position` with `remaining` iterations to go. -/
def eqLoop (lhs rhs : BigNum) : Nat → Nat → Except Error Bool
  | 0, _ => .ok true
  | remaining + 1, position => do
    let l ← vecAt lhs._value position
    let r ← vecAt rhs._value position
    if l ≠ r then .ok false
    else eqLoop lhs rhs remaining (position + 1)

/-- The function `operator==`. -/
def eq (lhs rhs : BigNum) : Except Error Bool :=
  if lhs.isNegative ≠ rhs.isNegative then .ok false
  else if lhs._value.length ≠ rhs._value.length then .ok false
  else eqLoop lhs rhs lhs._value.length 0

/-- The loop `for (size_t i = lhs._value.size(); i > 0; --i)` of `operator<`. -/
def ltLoop (lhs rhs : BigNum) : Nat → Except Error Bool
  | 0 => .ok false
  | position + 1 => do
    let l ← vecAt lhs._value position
    let r ← vecAt rhs._value position
    if l = r then ltLoop lhs rhs position
    else if lhs.isNegative then .ok (decide (l > r))
    else .ok (decide (l < r))

/-- The function `operator<`. -/
def lt (lhs rhs : BigNum) : Except Error Bool :=
  if lhs.isNegative && !rhs.isNegative then .ok true
  else if !lhs.isNegative && rhs.isNegative then .ok false
  else if lhs._value.length ≠ rhs._value.length then
    if lhs.isNegative then .ok (decide (lhs._value.length > rhs._value.length))
    else .ok (decide (lhs._value.length < rhs._value.length))
  else ltLoop lhs rhs lhs._value.length

/-- The function `operator!=`: `!(lhs == rhs)`. -/
def ne (lhs rhs : BigNum) : Except Error Bool := do
  let equal ← eq lhs rhs
  .ok (!equal)

/-- The function `operator>`: `!(lhs == rhs) && !(lhs < rhs)`. -/
def gt (lhs rhs : BigNum) : Except Error Bool := do
  let equal ← eq lhs rhs
  if !equal then do
    let less ← lt lhs rhs
    .ok (!less)
  else .ok false

/-- The function `operator<=`: `!(lhs > rhs)`. -/
def le (lhs rhs : BigNum) : Except Error Bool := do
  let greater ← gt lhs rhs
  .ok (!greater)

/-- The function `operator>=`: `!(lhs < rhs)`. -/
def ge (lhs rhs : BigNum) : Except Error Bool := do
  let less ← lt lhs rhs
  .ok (!less)

/-! ## Addition and subtraction -/

/-- The carry loop of `operator+`; `lhs` is the vector that is overwritten in place. -/
def addLoop : Nat → List Nat → List Nat → Nat → Nat → Except Error (List Nat)
  | 0, _, _, _, _ => .error .outOfFuel
  | fuel + 1, lhs, rhs, carry, pos =>
    if carry > 0 ∨ pos < lhs.length ∨ pos < rhs.length then do
      let lhsDigit ← (if pos < lhs.length then vecAt lhs pos else pure 0)
      let rhsDigit ← (if pos < rhs.length then vecAt rhs pos else pure 0)
      let carry := u8 (carry + (lhsDigit + rhsDigit))
      let lhs := if pos < lhs.length then lhs.set pos (carry % 10) else lhs ++ [carry % 10]
      addLoop fuel lhs rhs (carry / 10) (pos + 1)
    else .ok lhs

/-- The borrow loop of `operator-`. -/
def subLoop : Nat → List Nat → List Nat → Nat → Nat → List Nat → Except Error (List Nat)
  | 0, _, _, _, _, _ => .error .outOfFuel
  | fuel + 1, minuend, subtrahend, pos, borrowed, resultValues =>
    if borrowed > 0 ∨ pos < minuend.length ∨ pos < subtrahend.length then do
      let minuendDigit ← (if pos < minuend.length then vecAt minuend pos else pure 0)
      let subtrahendDigit ← (if pos < subtrahend.length then vecAt subtrahend pos else pure 0)
      let subtrahendDigit := u8 (subtrahendDigit + borrowed)
      let borrowed := 0
      let less := decide (minuendDigit < subtrahendDigit)
      let minuendDigit := if less then u8 (minuendDigit + 10) else minuendDigit
      let borrowed := if less then u8 (borrowed + 1) else borrowed
      let resultValues := resultValues ++ [u8 (minuendDigit + 256 - subtrahendDigit)]
      subLoop fuel minuend subtrahend (pos + 1) borrowed resultValues
    else .ok resultValues

mutual
/-- The function `operator+`. -/
def add : Nat → BigNum → BigNum → Except Error BigNum
  | 0, _, _ => .error .outOfFuel
  | fuel + 1, lhs, rhs =>
    if lhs.isNegative && !rhs.isNegative then
      sub fuel rhs { lhs with isNegative := false }
    else if !lhs.isNegative && rhs.isNegative then
      sub fuel lhs { rhs with isNegative := false }
    else do
      let value ← addLoop fuel lhs._value rhs._value 0 0
      .ok { lhs with _value := value }
/-- The function `operator-` (binary). -/
def sub : Nat → BigNum → BigNum → Except Error BigNum
  | 0, _, _ => .error .outOfFuel
  | fuel + 1, lhs, rhs =>
    if lhs.isNegative && !rhs.isNegative then
      add fuel lhs { rhs with isNegative := true }
    else if !lhs.isNegative && rhs.isNegative then
      add fuel lhs { rhs with isNegative := false }
    else do
      let resultIsNegative := false
      let reverse := false
      let less ← (if !lhs.isNegative then lt lhs rhs else pure false)
      let resultIsNegative := if less then true else resultIsNegative
      let reverse := if less then true else reverse
      let less ← (if lhs.isNegative then lt lhs rhs else pure false)
      let resultIsNegative := if lhs.isNegative && less then true else resultIsNegative
      let reverse := if lhs.isNegative && !less then true else reverse
      let minuend := if reverse then rhs else lhs
      let subtrahend := if reverse then lhs else rhs
      let resultValues ← subLoop fuel minuend._value subtrahend._value 0 0 []
      ofVector fuel resultValues resultIsNegative
end

/-! ## Multiplication and negation -/

/-- The body of the inner loop of `operator*` for one `rhsPos`; the state is
`(carry, carryInLine)`. -/
def mulStep (lhs rhs : List Nat) (column : Nat) (state : Nat × List Nat) (rhsPos : Nat) :
    Except Error (Nat × List Nat) := do
  let (carry, carryInLine) := state
  let carryInLine ←
    (if !(decide (rhsPos > column) ||
        (decide (column ≥ lhs.length) && decide (column - lhs.length ≥ rhsPos))) then
      (if lhs.length = 0 then .error .divisionByZero
      else do
        let lhsPos := (column - rhsPos) % lhs.length
        let c ← vecAt carryInLine rhsPos
        let l ← vecAt lhs lhsPos
        let r ← vecAt rhs rhsPos
        pure (carryInLine.set rhsPos (u8 (c + l * r))))
    else pure carryInLine)
  let c ← vecAt carryInLine rhsPos
  let carry := carry + c % 10
  let carryInLine := carryInLine.set rhsPos (c / 10)
  .ok (carry, carryInLine)

/-- The body of the column loop of `operator*`; the state is
`(resultValues, carry, carryInLine)`. -/
def mulColumn (lhs rhs : List Nat) (state : List Nat × Nat × List Nat) (column : Nat) :
    Except Error (List Nat × Nat × List Nat) := do
  let (resultValues, carry, carryInLine) := state
  let (carry, carryInLine) ←
    (List.range rhs.length).foldlM (mulStep lhs rhs column) (carry, carryInLine)
  .ok (resultValues ++ [carry % 10], carry / 10, carryInLine)

/-- The function `operator*`. The constructor's first argument is a copy of
`resultValues`, which the constructor strips itself; the call of `deleteZeroPrefix` in the
second argument only decides the sign. -/
def mul (fuel : Nat) (lhs rhs : BigNum) : Except Error BigNum := do
  let carryInLine := List.replicate rhs._value.length 0
  let (resultValues, _, _) ←
    (List.range (lhs._value.length + rhs._value.length)).foldlM
      (mulColumn lhs._value rhs._value) ([], 0, carryInLine)
  let stripped ← deleteZeroPrefix fuel resultValues
  let isZero ←
    (if stripped.length = 1 then do
      let d ← vecAt stripped 0
      pure (decide (d = 0))
    else pure false)
  ofVector fuel resultValues (if isZero then false else lhs.isNegative != rhs.isNegative)

/-- The function `operator-` (unary): `-1 * (*this)`. -/
def negate (fuel : Nat) (x : BigNum) : Except Error BigNum := do
  let minusOne ← fromInteger fuel (-1)
  mul fuel minusOne x

/-! ## Rendering -/

/-- The function `operator<<`: the characters written to the stream. -/
def toDecimalString (rhs : BigNum) : List Char :=
  (if rhs.isNegative then ['-'] else []) ++
    (rhs._value.reverse.map (fun d => Nat.toDigits 10 d)).flatten

/-! ## Denotation and validity -/

/-- The number written by a digit sequence, least-significant digit first. -/
def val : List Nat → Nat
  | [] => 0
  | d :: ds => d + 10 * val ds

/-- The integer a `BigNum` denotes. -/
def toInt (b : BigNum) : Int :=
  if b.isNegative then -(val b._value : Int) else (val b._value : Int)

/-- A canonical magnitude: a non-empty digit sequence, every digit in 0..9, and no
most-significant zero except in `[0]`. -/
def Canonical (v : List Nat) : Prop :=
  v ≠ [] ∧ (∀ d ∈ v, d < 10) ∧ (v.getLast? ≠ some 0 ∨ v = [0])

instance instDecidableCanonical (v : List Nat) : Decidable (Canonical v) := by
  unfold Canonical; infer_instance

/-- The data-model invariants: the magnitude is canonical and zero is not negative. -/
def Valid (b : BigNum) : Prop :=
  Canonical b._value ∧ (b._value = [0] → b.isNegative = false)

instance instDecidableValid (b : BigNum) : Decidable (Valid b) := by
  unfold Valid; infer_instance

/-- The digit sequence with its most-significant zeros removed. -/
def stripZeros (v : List Nat) : List Nat := v.rdropWhile (fun d => d == 0)

/-- What `deleteZeroPrefix` returns: the stripped sequence, or `[0]` when nothing is left. -/
def normalize (v : List Nat) : List Nat :=
  if (stripZeros v).isEmpty then [0] else stripZeros v

/-- The product that the inner loop of `operator*` adds for `rhsPos` in `column`:
`lhs[column - rhsPos] * rhs[rhsPos]` when the index pair is in range, nothing otherwise. -/
def colProd (lhs rhs : List Nat) (column rhsPos : Nat) : Nat :=
  if rhsPos ≤ column ∧ column - rhsPos < lhs.length then
    lhs.getD (column - rhsPos) 0 * rhs.getD rhsPos 0
  else 0

/-- The part of the row `lhs * rhs[rhsPos]`, shifted by `rhsPos`, that lies below `column`. -/
def rowPrefix (lhs rhs : List Nat) (column rhsPos : Nat) : Nat :=
  10 ^ rhsPos * (rhs.getD rhsPos 0 * val (lhs.take (column - rhsPos)))

/-- Whether the string starts with a sign character. -/
def signed (str : List Char) : Bool :=
  decide (str.head? = some '+') || decide (str.head? = some '-')

/-- The characters after the optional leading sign. -/
def numeral (str : List Char) : List Char :=
  if signed str then str.tail else str

/-- The strings the string constructor refuses: the empty string, a lone sign, a numeral
with a character that is not a decimal digit, and a `-` followed by zeros only. -/
def Rejected (str : List Char) : Prop :=
  str = [] ∨ str = ['+'] ∨ str = ['-'] ∨ (∃ c ∈ numeral str, isdigit c = false) ∨
    (str.head? = some '-' ∧ ∀ c ∈ numeral str, c = '0')

instance instDecidableRejected (str : List Char) : Decidable (Rejected str) := by
  unfold Rejected; infer_instance

/-- The digits of a numeral in storage order: the string read right-to-left. -/
def digitsOf (str : List Char) : List Nat :=
  str.reverse.map (fun c => c.toNat - 48)

/-- The number a string of decimal digits writes, most-significant digit first. -/
def decimalValue (str : List Char) : Nat :=
  str.foldl (fun acc c => 10 * acc + (c.toNat - 48)) 0

/-- The carry loop of `operator+` (`addLoop`) with a record: each iteration appends to
`sums` the value of `carry + lhsDigit + rhsDigit` before it is stored in the `uint8_t`
variable `carry`. -/
def addLoopTrace :
    Nat → List Nat → List Nat → Nat → Nat → List Nat → Except Error (List Nat × List Nat)
  | 0, _, _, _, _, _ => .error .outOfFuel
  | fuel + 1, lhs, rhs, carry, pos, sums =>
    if carry > 0 ∨ pos < lhs.length ∨ pos < rhs.length then do
      let lhsDigit ← (if pos < lhs.length then vecAt lhs pos else pure 0)
      let rhsDigit ← (if pos < rhs.length then vecAt rhs pos else pure 0)
      let sum := carry + (lhsDigit + rhsDigit)
      let carry := u8 sum
      let lhs := if pos < lhs.length then lhs.set pos (carry % 10) else lhs ++ [carry % 10]
      addLoopTrace fuel lhs rhs (carry / 10) (pos + 1) (sums ++ [sum])
    else .ok (lhs, sums)

/-- The borrow loop of `operator-` (`subLoop`) with a record: each iteration appends the
value of `subtrahendDigit + borrowed` before it is stored, the value of the minuend digit
after the optional `+= 10` before it is stored, and the integer
`minuendDigit - subtrahendDigit` that is pushed onto `resultValues`. -/
def subLoopTrace :
    Nat → List Nat → List Nat → Nat → Nat → List Nat → List (Nat × Nat × Int) →
      Except Error (List Nat × List (Nat × Nat × Int))
  | 0, _, _, _, _, _, _ => .error .outOfFuel
  | fuel + 1, minuend, subtrahend, pos, borrowed, resultValues, record =>
    if borrowed > 0 ∨ pos < minuend.length ∨ pos < subtrahend.length then do
      let minuendDigit ← (if pos < minuend.length then vecAt minuend pos else pure 0)
      let subtrahendDigit ← (if pos < subtrahend.length then vecAt subtrahend pos else pure 0)
      let subtrahendRaw := subtrahendDigit + borrowed
      let subtrahendDigit := u8 subtrahendRaw
      let borrowed := 0
      let less := decide (minuendDigit < subtrahendDigit)
      let minuendRaw := if less then minuendDigit + 10 else minuendDigit
      let minuendDigit := if less then u8 (minuendDigit + 10) else minuendDigit
      let borrowed := if less then u8 (borrowed + 1) else borrowed
      let difference : Int := (minuendDigit : Int) - (subtrahendDigit : Int)
      let resultValues := resultValues ++ [u8 (minuendDigit + 256 - subtrahendDigit)]
      subLoopTrace fuel minuend subtrahend (pos + 1) borrowed resultValues
        (record ++ [(subtrahendRaw, minuendRaw, difference)])
    else .ok (resultValues, record)

/-- The column sum of schoolbook long multiplication as the spec words it: the sum over all
digit-index pairs `(i, j)`, `i` in `a` and `j` in `b`, with `i + j = c`, of `a[i] * b[j]`. -/
def schoolbookColumn (a b : List Nat) (c : Nat) : Nat :=
  ∑ i in Finset.range a.length, ∑ j in Finset.range b.length,
    if i + j = c then a.getD i 0 * b.getD j 0 else 0

/-! ## Element access -/

theorem vecAt_of_lt {v : List Nat} {pos : Nat} (h : pos < v.length) :
    vecAt v pos = .ok (v.getD pos 0) := by
  unfold vecAt
  rw [List.getD_eq_getElem?_getD, List.getElem?_eq_getElem h]
  rfl

theorem strAt_of_lt {s : List Char} {pos : Nat} (h : pos < s.length) :
    strAt s pos = .ok (s.getD pos 'A') := by
  unfold strAt
  rw [List.getD_eq_getElem?_getD, List.getElem?_eq_getElem h]
  rfl

theorem getD_lt_ten {v : List Nat} (hv : ∀ d ∈ v, d < 10) (i : Nat) : v.getD i 0 < 10 := by
  rw [List.getD_eq_getElem?_getD]
  by_cases h : i < v.length
  · rw [List.getElem?_eq_getElem h]
    exact hv _ (List.getElem_mem h)
  · rw [List.getElem?_eq_none (by omega)]
    simp

theorem getD_append_length (xs : List Nat) (x : Nat) (ys : List Nat) :
    (xs ++ x :: ys).getD xs.length 0 = x := by
  rw [List.getD_eq_getElem?_getD, List.getElem?_append_right (le_refl _)]
  simp

theorem eq_nil_or_snoc (v : List Nat) : v = [] ∨ ∃ ys y, v = ys ++ [y] := by
  induction v using List.reverseRecOn with
  | nil => exact Or.inl rfl
  | append_singleton ys y _ => exact Or.inr ⟨ys, y, rfl⟩

/-! ## The value of a digit sequence -/

@[simp] theorem val_nil : val [] = 0 := rfl

@[simp] theorem val_cons (d : Nat) (ds : List Nat) : val (d :: ds) = d + 10 * val ds := rfl

theorem val_append (xs ys : List Nat) :
    val (xs ++ ys) = val xs + 10 ^ xs.length * val ys := by
  induction xs with
  | nil => simp
  | cons x xs ih =>
    simp only [List.cons_append, val_cons, ih, List.length_cons, pow_succ]
    ring

theorem val_concat (xs : List Nat) (d : Nat) :
    val (xs ++ [d]) = val xs + 10 ^ xs.length * d := by
  rw [val_append]; simp

theorem val_lt_pow {xs : List Nat} (h : ∀ d ∈ xs, d < 10) : val xs < 10 ^ xs.length := by
  induction xs with
  | nil => simp
  | cons x xs ih =>
    have hx : x < 10 := h x (List.mem_cons_self _ _)
    have := ih (fun d hd => h d (List.mem_cons_of_mem _ hd))
    simp only [val_cons, List.length_cons, pow_succ]
    omega

theorem val_drop (v : List Nat) (pos : Nat) :
    val (v.drop pos) = v.getD pos 0 + 10 * val (v.drop (pos + 1)) := by
  induction v generalizing pos with
  | nil => simp
  | cons x xs ih =>
    cases pos with
    | zero => simp
    | succ p => simpa using ih p

theorem val_take_succ (v : List Nat) (i : Nat) :
    val (v.take (i + 1)) = val (v.take i) + 10 ^ i * v.getD i 0 := by
  induction v generalizing i with
  | nil => simp
  | cons x xs ih =>
    cases i with
    | zero => simp
    | succ p =>
      simp only [List.take_succ_cons, val_cons, ih p, List.getD_cons_succ, pow_succ]
      ring

theorem val_take_of_le (v : List Nat) (i : Nat) (h : v.length ≤ i) : val (v.take i) = val v := by
  rw [List.take_of_length_le h]

/-- A digit sequence whose top digit is not zero is at least `10 ^ (length - 1)`. -/
theorem pow_le_val {xs : List Nat} (hne : xs ≠ []) (htop : xs.getLast? ≠ some 0) :
    10 ^ (xs.length - 1) ≤ val xs := by
  obtain ⟨ys, y, rfl⟩ : ∃ ys y, xs = ys ++ [y] := by
    rcases eq_nil_or_snoc xs with h | h
    · exact absurd h hne
    · exact h
  have hy : y ≠ 0 := by
    intro h0; apply htop; simp [h0]
  rw [val_concat]
  simp only [List.length_append, List.length_singleton, Nat.add_sub_cancel]
  have : 10 ^ ys.length * 1 ≤ 10 ^ ys.length * y :=
    Nat.mul_le_mul_left _ (Nat.one_le_iff_ne_zero.mpr hy)
  omega

/-- A digit sequence whose top digit is zero is below `10 ^ (length - 1)`. -/
theorem val_lt_of_top_zero {xs : List Nat} (h : ∀ d ∈ xs, d < 10)
    (htop : xs.getLast? = some 0) : val xs < 10 ^ (xs.length - 1) := by
  rcases eq_nil_or_snoc xs with h0 | ⟨ys, y, rfl⟩
  · subst h0; simp at htop
  · have hy : y = 0 := by simpa using htop
    subst hy
    rw [val_concat]
    simp only [List.length_append, List.length_singleton, Nat.add_sub_cancel, Nat.mul_zero,
      Nat.add_zero]
    exact val_lt_pow (fun d hd => h d (List.mem_append_left _ hd))

/-! ## Normalisation -/

theorem stripZeros_concat_zero (v : List Nat) : stripZeros (v ++ [0]) = stripZeros v := by
  unfold stripZeros
  rw [List.rdropWhile_concat_pos]
  rfl

theorem stripZeros_concat_pos (v : List Nat) (d : Nat) (h : d ≠ 0) :
    stripZeros (v ++ [d]) = v ++ [d] := by
  unfold stripZeros
  rw [List.rdropWhile_concat_neg]
  simpa using h

@[simp] theorem stripZeros_nil : stripZeros [] = [] := by
  unfold stripZeros; simp

theorem val_stripZeros (v : List Nat) : val (stripZeros v) = val v := by
  induction v using List.reverseRecOn with
  | nil => simp
  | append_singleton ys y ih =>
    by_cases hy : y = 0
    · subst hy
      rw [stripZeros_concat_zero, ih, val_concat]; simp
    · rw [stripZeros_concat_pos _ _ hy]

theorem stripZeros_initial (v : List Nat) : stripZeros v <+: v := by
  unfold stripZeros; exact List.rdropWhile_prefix (fun d => d == 0) v

theorem mem_of_mem_stripZeros {v : List Nat} {d : Nat} (h : d ∈ stripZeros v) : d ∈ v :=
  (stripZeros_initial v).subset h

theorem stripZeros_top (v : List Nat) : (stripZeros v).getLast? ≠ some 0 := by
  induction v using List.reverseRecOn with
  | nil => simp
  | append_singleton ys y ih =>
    by_cases hy : y = 0
    · subst hy
      rw [stripZeros_concat_zero]; exact ih
    · rw [stripZeros_concat_pos _ _ hy]
      simpa using hy

theorem stripZeros_eq_self {v : List Nat} (h : v.getLast? ≠ some 0) : stripZeros v = v := by
  rcases eq_nil_or_snoc v with h0 | ⟨ys, y, rfl⟩
  · subst h0; simp
  · apply stripZeros_concat_pos
    intro hy; apply h; simp [hy]

theorem stripZeros_eq_nil_iff (v : List Nat) : stripZeros v = [] ↔ val v = 0 := by
  induction v using List.reverseRecOn with
  | nil => simp
  | append_singleton ys y ih =>
    by_cases hy : y = 0
    · subst hy
      rw [stripZeros_concat_zero, ih, val_concat]; simp
    · rw [stripZeros_concat_pos _ _ hy, val_concat]
      simp [hy]

theorem deleteZeroPrefixLoop_eq (fuel : Nat) (v : List Nat) (h : v.length < fuel) :
    deleteZeroPrefixLoop fuel v = .ok (stripZeros v) := by
  induction fuel generalizing v with
  | zero => omega
  | succ fuel ih =>
    rcases eq_nil_or_snoc v with h0 | ⟨ys, y, rfl⟩
    · subst h0; simp [deleteZeroPrefixLoop]
    · have hlen : (ys ++ [y]).length - 1 < (ys ++ [y]).length := by simp
      have hget : (ys ++ [y]).getD ((ys ++ [y]).length - 1) 0 = y := by
        simp only [List.length_append, List.length_singleton, Nat.add_sub_cancel]
        exact getD_append_length ys y []
      unfold deleteZeroPrefixLoop
      rw [vecAt_of_lt hlen, hget]
      by_cases hy : y = 0
      · subst hy
        simp only [List.length_append, List.length_singleton] at h
        simp [bind, Except.bind, stripZeros_concat_zero, ih ys (by omega)]
      · simp [bind, Except.bind, stripZeros_concat_pos _ _ hy, hy]

theorem deleteZeroPrefix_eq (fuel : Nat) (v : List Nat) (h : v.length < fuel) :
    deleteZeroPrefix fuel v = .ok (normalize v) := by
  unfold deleteZeroPrefix normalize
  rw [deleteZeroPrefixLoop_eq fuel v h]
  by_cases hs : (stripZeros v).isEmpty
  · have : stripZeros v = [] := by simpa using hs
    simp [bind, Except.bind, this]
  · simp [bind, Except.bind, hs]

theorem ofVector_eq (fuel : Nat) (v : List Nat) (neg : Bool) (h : v.length < fuel) :
    ofVector fuel v neg = .ok { _value := normalize v, isNegative := neg } := by
  unfold ofVector
  rw [deleteZeroPrefix_eq fuel v h]
  rfl

theorem val_normalize (v : List Nat) : val (normalize v) = val v := by
  unfold normalize
  by_cases hs : (stripZeros v).isEmpty
  · have h0 : stripZeros v = [] := by simpa using hs
    rw [if_pos hs]
    have := (stripZeros_eq_nil_iff v).mp h0
    simp [this]
  · rw [if_neg hs, val_stripZeros]

theorem normalize_ne_nil (v : List Nat) : normalize v ≠ [] := by
  unfold normalize
  by_cases hs : (stripZeros v).isEmpty
  · rw [if_pos hs]; simp
  · rw [if_neg hs]; simpa using hs

theorem normalize_digits {v : List Nat} (h : ∀ d ∈ v, d < 10) : ∀ d ∈ normalize v, d < 10 := by
  unfold normalize
  by_cases hs : (stripZeros v).isEmpty
  · rw [if_pos hs]; simp
  · rw [if_neg hs]
    exact fun d hd => h d (mem_of_mem_stripZeros hd)

theorem normalize_top (v : List Nat) :
    (normalize v).getLast? ≠ some 0 ∨ normalize v = [0] := by
  unfold normalize
  by_cases hs : (stripZeros v).isEmpty
  · rw [if_pos hs]; right; rfl
  · rw [if_neg hs]; left; exact stripZeros_top v

theorem normalize_eq_zero_iff (v : List Nat) : normalize v = [0] ↔ val v = 0 := by
  constructor
  · intro h
    rw [← val_normalize, h]; rfl
  · intro h
    unfold normalize
    rw [(stripZeros_eq_nil_iff v).mpr h]
    rfl

theorem normalize_length_le (v : List Nat) (h : v ≠ []) : (normalize v).length ≤ v.length := by
  unfold normalize
  by_cases hs : (stripZeros v).isEmpty
  · rw [if_pos hs]
    cases v with
    | nil => exact absurd rfl h
    | cons x xs => simp
  · rw [if_neg hs]
    exact (stripZeros_initial v).length_le

/-- On canonical digits normalisation changes nothing. -/
theorem normalize_eq_self {v : List Nat} (hne : v ≠ [])
    (htop : v.getLast? ≠ some 0 ∨ v = [0]) : normalize v = v := by
  rcases htop with h | h
  · unfold normalize
    rw [stripZeros_eq_self h]
    have : v.isEmpty = false := by
      cases v with
      | nil => exact absurd rfl hne
      | cons x xs => rfl
    simp [this]
  · subst h; decide

/-! ## Canonical magnitudes -/

theorem Canonical.val_lt {v : List Nat} (h : Canonical v) : val v < 10 ^ v.length :=
  val_lt_pow h.2.1

theorem Canonical.length_pos {v : List Nat} (h : Canonical v) : 0 < v.length :=
  List.length_pos.mpr h.1

theorem Canonical.val_eq_zero_iff {v : List Nat} (h : Canonical v) : val v = 0 ↔ v = [0] := by
  constructor
  · intro hv
    rcases h.2.2 with htop | h0
    · have := pow_le_val h.1 htop
      have hp : 0 < 10 ^ (v.length - 1) := Nat.pos_pow_of_pos _ (by norm_num)
      omega
    · exact h0
  · intro hv; subst hv; rfl

theorem Canonical.pow_le {v : List Nat} (h : Canonical v) (h2 : 2 ≤ v.length) :
    10 ^ (v.length - 1) ≤ val v := by
  rcases h.2.2 with htop | h0
  · exact pow_le_val h.1 htop
  · subst h0; simp at h2

theorem Canonical.val_lt_of_length_lt {a b : List Nat} (ha : Canonical a) (hb : Canonical b)
    (h : a.length < b.length) : val a < val b := by
  have h1 := ha.val_lt
  have h2 := hb.pow_le (by have := ha.length_pos; omega)
  have h3 : 10 ^ a.length ≤ 10 ^ (b.length - 1) :=
    Nat.pow_le_pow_right (by norm_num) (by omega)
  omega

theorem val_inj_of_length_eq {a b : List Nat} (ha : ∀ d ∈ a, d < 10) (hb : ∀ d ∈ b, d < 10)
    (hlen : a.length = b.length) (h : val a = val b) : a = b := by
  induction a generalizing b with
  | nil =>
    cases b with
    | nil => rfl
    | cons y ys => simp at hlen
  | cons x xs ih =>
    cases b with
    | nil => simp at hlen
    | cons y ys =>
      have hx : x < 10 := ha x (List.mem_cons_self _ _)
      have hy : y < 10 := hb y (List.mem_cons_self _ _)
      simp only [val_cons] at h
      have hxy : x = y := by omega
      have hv : val xs = val ys := by omega
      rw [hxy, ih (fun d hd => ha d (List.mem_cons_of_mem _ hd))
        (fun d hd => hb d (List.mem_cons_of_mem _ hd)) (by simpa using hlen) hv]

/-- Canonical magnitudes are determined by the number they write. -/
theorem Canonical.val_inj {a b : List Nat} (ha : Canonical a) (hb : Canonical b)
    (h : val a = val b) : a = b := by
  have hlen : a.length = b.length := by
    rcases Nat.lt_trichotomy a.length b.length with hl | hl | hl
    · have := ha.val_lt_of_length_lt hb hl; omega
    · exact hl
    · have := hb.val_lt_of_length_lt ha hl; omega
  exact val_inj_of_length_eq ha.2.1 hb.2.1 hlen h

theorem Valid.val_pos_of_neg {b : BigNum} (h : Valid b) (hn : b.isNegative = true) :
    0 < val b._value := by
  rcases Nat.eq_zero_or_pos (val b._value) with h0 | h0
  · have := h.2 (h.1.val_eq_zero_iff.mp h0)
    rw [hn] at this; cases this
  · exact h0

/-- Valid numbers are determined by the integer they denote. -/
theorem Valid.toInt_inj {a b : BigNum} (ha : Valid a) (hb : Valid b)
    (h : toInt a = toInt b) : a = b := by
  obtain ⟨av, an⟩ := a
  obtain ⟨bv, bn⟩ := b
  cases an <;> cases bn
  · simp only [toInt] at h
    have hv : val av = val bv := by simpa using h
    have e : av = bv := ha.1.val_inj hb.1 hv
    rw [e]
  · have hp := hb.val_pos_of_neg rfl
    simp only [toInt] at h hp
    simp at h
    omega
  · have hp := ha.val_pos_of_neg rfl
    simp only [toInt] at h hp
    simp at h
    omega
  · simp only [toInt] at h
    have hv : val av = val bv := by simpa using h
    have e : av = bv := ha.1.val_inj hb.1 hv
    rw [e]

/-! ## `operator==` -/

theorem eqLoop_eq (lhs rhs : BigNum) (remaining position : Nat)
    (hl : remaining + position = lhs._value.length)
    (hr : remaining + position = rhs._value.length) :
    eqLoop lhs rhs remaining position =
      .ok (decide (lhs._value.drop position = rhs._value.drop position)) := by
  induction remaining generalizing position with
  | zero =>
    rw [List.drop_of_length_le (by omega), List.drop_of_length_le (by omega)]
    simp [eqLoop]
  | succ k ih =>
    have h1 : position < lhs._value.length := by omega
    have h2 : position < rhs._value.length := by omega
    unfold eqLoop
    rw [vecAt_of_lt h1, vecAt_of_lt h2]
    have d1 : lhs._value.drop position =
        lhs._value.getD position 0 :: lhs._value.drop (position + 1) := by
      rw [List.drop_eq_getElem_cons h1, List.getD_eq_getElem?_getD,
        List.getElem?_eq_getElem h1]; rfl
    have d2 : rhs._value.drop position =
        rhs._value.getD position 0 :: rhs._value.drop (position + 1) := by
      rw [List.drop_eq_getElem_cons h2, List.getD_eq_getElem?_getD,
        List.getElem?_eq_getElem h2]; rfl
    rw [d1, d2]
    generalize lhs._value.getD position 0 = l
    generalize rhs._value.getD position 0 = r
    by_cases hne : l = r
    · subst hne
      simp only [bind, Except.bind, ne_eq, not_true_eq_false, if_false,
        ih (position + 1) (by omega) (by omega), List.cons.injEq, true_and]
    · simp only [bind, Except.bind, ne_eq, hne, not_false_eq_true, if_true, List.cons.injEq,
        false_and, decide_False]

/-- The function `operator==` never fails and decides structural equality. -/
theorem eq_eq (lhs rhs : BigNum) : eq lhs rhs = .ok (decide (lhs = rhs)) := by
  obtain ⟨lv, ln⟩ := lhs
  obtain ⟨rv, rn⟩ := rhs
  unfold eq
  by_cases hs : ln = rn
  · by_cases hlen : lv.length = rv.length
    · simp only [hs, hlen, ne_eq, not_true_eq_false, if_false]
      rw [eqLoop_eq _ _ _ _ (by simp [hlen]) (by simp)]
      simp [hs]
    · have : lv ≠ rv := fun h => hlen (by rw [h])
      simp [hs, hlen, this]
  · simp [hs]

/-! ## `operator<` -/

theorem ltLoop_eq (lhs rhs : BigNum) (hl : ∀ d ∈ lhs._value, d < 10)
    (hr : ∀ d ∈ rhs._value, d < 10) (i : Nat)
    (h1 : i ≤ lhs._value.length) (h2 : i ≤ rhs._value.length) :
    ltLoop lhs rhs i =
      .ok (if lhs.isNegative then decide (val (rhs._value.take i) < val (lhs._value.take i))
        else decide (val (lhs._value.take i) < val (rhs._value.take i))) := by
  induction i with
  | zero => simp [ltLoop]
  | succ i ih =>
    have ih := ih (by omega) (by omega)
    unfold ltLoop
    rw [vecAt_of_lt (by omega), vecAt_of_lt (by omega), val_take_succ, val_take_succ]
    have hA : val (lhs._value.take i) < 10 ^ i := by
      have := @val_lt_pow (lhs._value.take i)
        (fun d hd => hl d (List.mem_of_mem_take hd))
      rwa [List.length_take, Nat.min_eq_left (by omega)] at this
    have hB : val (rhs._value.take i) < 10 ^ i := by
      have := @val_lt_pow (rhs._value.take i)
        (fun d hd => hr d (List.mem_of_mem_take hd))
      rwa [List.length_take, Nat.min_eq_left (by omega)] at this
    generalize lhs._value.getD i 0 = l at *
    generalize rhs._value.getD i 0 = r at *
    generalize val (lhs._value.take i) = A at *
    generalize val (rhs._value.take i) = B at *
    generalize 10 ^ i = P at *
    by_cases hlr : l = r
    · subst hlr
      simp only [bind, Except.bind, if_true, ih]
      cases lhs.isNegative <;> simp
    · rcases Nat.lt_or_gt_of_ne hlr with hlt | hgt
      · have hm : P * (l + 1) ≤ P * r := Nat.mul_le_mul_left _ hlt
        have e1 : A + P * l < B + P * r := by nlinarith
        have e2 : ¬ (B + P * r < A + P * l) := by omega
        have e3 : ¬ (l > r) := by omega
        cases hneg : lhs.isNegative <;> simp [bind, Except.bind, hlr, hlt, e1, e2, e3]
      · have hm : P * (r + 1) ≤ P * l := Nat.mul_le_mul_left _ hgt
        have e1 : B + P * r < A + P * l := by nlinarith
        have e2 : ¬ (A + P * l < B + P * r) := by omega
        have e3 : ¬ (l < r) := by omega
        cases hneg : lhs.isNegative <;> simp [bind, Except.bind, hlr, hgt, e1, e2, e3]

/-- On valid operands `operator<` never fails and decides the order of the denoted
integers. -/
theorem lt_eq {lhs rhs : BigNum} (hl : Valid lhs) (hr : Valid rhs) :
    lt lhs rhs = .ok (decide (toInt lhs < toInt rhs)) := by
  obtain ⟨lv, ln⟩ := lhs
  obtain ⟨rv, rn⟩ := rhs
  have hlc : Canonical lv := hl.1
  have hrc : Canonical rv := hr.1
  unfold lt
  cases ln <;> cases rn
  · -- both non-negative
    simp only [toInt, Bool.false_and, Bool.and_false, Bool.not_false, Bool.not_true,
      Bool.false_eq_true, if_false, Nat.cast_lt]
    by_cases hlen : lv.length = rv.length
    · simp only [hlen, ne_eq, not_true_eq_false, if_false]
      rw [ltLoop_eq _ _ hlc.2.1 hrc.2.1 _ (by simp [hlen]) (by simp)]
      simp only [Bool.false_eq_true, if_false]
      rw [val_take_of_le _ _ (by omega), val_take_of_le _ _ (by omega)]
    · simp only [ne_eq, hlen, not_false_eq_true, if_true]
      rcases Nat.lt_or_gt_of_ne hlen with h | h
      · have := hlc.val_lt_of_length_lt hrc h
        simp [h, this]
      · have := hrc.val_lt_of_length_lt hlc h
        have h3 : ¬ lv.length < rv.length := by omega
        have h4 : ¬ val lv < val rv := by omega
        simp [h3, h4]
  · have hp := hr.val_pos_of_neg rfl
    simp only [toInt] at hp ⊢
    have : ¬ ((val lv : Int) < -(val rv : Int)) := by omega
    simp [this]
  · have hp := hl.val_pos_of_neg rfl
    simp only [toInt] at hp ⊢
    have : (-(val lv : Int) < (val rv : Int)) := by omega
    simp [this]
  · -- both negative
    simp only [toInt, Bool.true_and, Bool.not_true, Bool.false_eq_true, if_false, if_true,
      Bool.and_true, Bool.not_false, neg_lt_neg_iff, Nat.cast_lt, Bool.false_and]
    by_cases hlen : lv.length = rv.length
    · simp only [hlen, ne_eq, not_true_eq_false, if_false]
      rw [ltLoop_eq _ _ hlc.2.1 hrc.2.1 _ (by simp [hlen]) (by simp)]
      simp only [if_true]
      rw [val_take_of_le _ _ (by omega), val_take_of_le _ _ (by omega)]
    · simp only [ne_eq, hlen, not_false_eq_true, if_true]
      rcases Nat.lt_or_gt_of_ne hlen with h | h
      · have := hlc.val_lt_of_length_lt hrc h
        have h3 : ¬ lv.length > rv.length := by omega
        have h4 : ¬ val rv < val lv := by omega
        simp [h3, h4]
      · have := hrc.val_lt_of_length_lt hlc h
        simp [h, this]

/-! ## Arithmetic of one digit position -/

theorem carry_le_one {c l r : Nat} (hc : c ≤ 1) (hl : l < 10) (hr : r < 10) :
    (c + (l + r)) / 10 ≤ 1 := by omega

theorem u8_sum {c l r : Nat} (hc : c ≤ 1) (hl : l < 10) (hr : r < 10) :
    u8 (c + (l + r)) = c + (l + r) := by unfold u8; omega

theorem add_digit_eq (c l r A B : Nat) :
    (c + (l + r)) % 10 + 10 * ((c + (l + r)) / 10 + A + B) =
      c + (l + 10 * A) + (r + 10 * B) := by omega

theorem max_pred {a b p : Nat} (h : max a (b - p) ≠ 0) :
    max a (b - p) = max (a - 1) (b - (p + 1)) + 1 := by omega

theorem max_sub_succ {a b p : Nat} (h : max (a - p) (b - p) ≠ 0) :
    max (a - p) (b - p) = max (a - (p + 1)) (b - (p + 1)) + 1 := by omega

theorem go_of_max_ne {c a p b : Nat} (h : max a (b - p) ≠ 0) : c > 0 ∨ 0 < a ∨ p < b := by
  omega

theorem go_of_max_sub_ne {c a p b : Nat} (h : max (a - p) (b - p) ≠ 0) :
    c > 0 ∨ p < a ∨ p < b := by omega

theorem borrow_step {m s b VM VS : Nat} (hm : m < 10) (hs : s < 10) (hb : b ≤ 1)
    (hge : s + 10 * VS + b ≤ m + 10 * VM) (hlt : m < s + b) :
    VS + 1 ≤ VM ∧ m + 10 - (s + b) < 10 ∧ u8 (m + 10) = m + 10 ∧
      u8 (m + 10 + 256 - (s + b)) = m + 10 - (s + b) ∧
      ∀ o, o + VS + 1 = VM → (m + 10 - (s + b) + 10 * o) + (s + 10 * VS) + b = m + 10 * VM := by
  unfold u8
  refine ⟨by omega, by omega, by omega, by omega, ?_⟩
  intro o ho; omega

theorem noborrow_step {m s b VM VS : Nat} (hm : m < 10) (hs : s < 10) (hb : b ≤ 1)
    (hge : s + 10 * VS + b ≤ m + 10 * VM) (hlt : ¬ m < s + b) :
    VS + 0 ≤ VM ∧ m - (s + b) < 10 ∧
      u8 (m + 256 - (s + b)) = m - (s + b) ∧
      ∀ o, o + VS + 0 = VM → (m - (s + b) + 10 * o) + (s + 10 * VS) + b = m + 10 * VM := by
  unfold u8
  refine ⟨by omega, by omega, by omega, ?_⟩
  intro o ho; omega

/-! ## The carry loop of `operator+` -/

theorem digitAt_eq (v : List Nat) (pos : Nat) :
    (if pos < v.length then vecAt v pos else (pure 0 : Except Error Nat)) =
      .ok (v.getD pos 0) := by
  by_cases h : pos < v.length
  · rw [if_pos h, vecAt_of_lt h]
  · rw [if_neg h, List.getD_eq_getElem?_getD, List.getElem?_eq_none (by omega)]
    rfl

theorem getD_of_length_le (v : List Nat) (pos : Nat) (h : v.length ≤ pos) :
    v.getD pos 0 = 0 := by
  rw [List.getD_eq_getElem?_getD, List.getElem?_eq_none h]
  rfl

theorem addLoop_done (fuel : Nat) (lhs rhs : List Nat) (pos : Nat)
    (h1 : lhs.length ≤ pos) (h2 : rhs.length ≤ pos) :
    addLoop (fuel + 1) lhs rhs 0 pos = .ok lhs := by
  unfold addLoop
  have : ¬ (0 > 0 ∨ pos < lhs.length ∨ pos < rhs.length) := by omega
  rw [if_neg this]

theorem addLoop_step (fuel : Nat) (done rest rhs : List Nat) (carry : Nat)
    (hc : carry ≤ 1) (hrest : ∀ d ∈ rest, d < 10) (hrhs : ∀ d ∈ rhs, d < 10)
    (hgo : carry > 0 ∨ 0 < rest.length ∨ done.length < rhs.length) :
    addLoop (fuel + 1) (done ++ rest) rhs carry done.length =
      addLoop fuel
        ((done ++ [(carry + (rest.getD 0 0 + rhs.getD done.length 0)) % 10]) ++ rest.tail) rhs
        ((carry + (rest.getD 0 0 + rhs.getD done.length 0)) / 10) (done.length + 1) := by
  have hl : rest.getD 0 0 < 10 := getD_lt_ten hrest 0
  have hr : rhs.getD done.length 0 < 10 := getD_lt_ten hrhs _
  have hgo2 : carry > 0 ∨ done.length < (done ++ rest).length ∨ done.length < rhs.length := by
    simp only [List.length_append]; omega
  conv_lhs => unfold addLoop
  rw [if_pos hgo2, digitAt_eq, digitAt_eq]
  have hget : (done ++ rest).getD done.length 0 = rest.getD 0 0 := by
    cases rest with
    | nil => simp [getD_of_length_le]
    | cons x xs => rw [getD_append_length]; rfl
  have hu : u8 (carry + (rest.getD 0 0 + rhs.getD done.length 0)) =
      carry + (rest.getD 0 0 + rhs.getD done.length 0) := u8_sum hc hl hr
  simp only [bind, Except.bind, hget, hu]
  congr 1
  cases rest with
  | nil => simp
  | cons x xs =>
    have : done.length < (done ++ x :: xs).length := by simp
    rw [if_pos this]
    simp [List.set_append_right]

/-- The carry loop writes the sum of the remaining digits and the carry. -/
theorem addLoop_spec (fuel : Nat) (done rest rhs : List Nat) (carry : Nat)
    (hc : carry ≤ 1) (hrest : ∀ d ∈ rest, d < 10) (hrhs : ∀ d ∈ rhs, d < 10)
    (hfuel : max rest.length (rhs.length - done.length) + 2 ≤ fuel) :
    ∃ out, addLoop fuel (done ++ rest) rhs carry done.length = .ok (done ++ out) ∧
      val out = carry + val rest + val (rhs.drop done.length) ∧
      (∀ d ∈ out, d < 10) ∧
      (carry = 0 → max rest.length (rhs.length - done.length) = 0 → out = []) ∧
      (out.length = max rest.length (rhs.length - done.length) ∨
        (out.length = max rest.length (rhs.length - done.length) + 1 ∧
          out.getLast? = some 1)) := by
  induction fuel generalizing done rest carry with
  | zero => exact absurd hfuel (by simp)
  | succ fuel ih =>
    by_cases hM : max rest.length (rhs.length - done.length) = 0
    · -- nothing is left in either operand
      have hr0 : rest = [] := List.length_eq_zero.mp (Nat.eq_zero_of_le_zero (hM ▸ le_max_left _ _))
      have hlen : rhs.length ≤ done.length :=
        Nat.sub_eq_zero_iff_le.mp (Nat.eq_zero_of_le_zero (hM ▸ le_max_right _ _))
      subst hr0
      have hdrop : rhs.drop done.length = [] := List.drop_of_length_le hlen
      rw [hM, hdrop]
      rcases Nat.eq_zero_or_pos carry with h0 | hpos
      · subst h0
        refine ⟨[], ?_, rfl, by simp, fun _ _ => rfl, Or.inl rfl⟩
        rw [addLoop_done _ _ _ _ (by simp) hlen]
      · have hc1 : carry = 1 := le_antisymm hc hpos
        subst hc1
        obtain ⟨f, rfl⟩ : ∃ f, fuel = f + 1 := ⟨fuel - 1, by rw [hM] at hfuel; omega⟩
        refine ⟨[1], ?_, rfl, by simp, fun h => absurd h (by simp), Or.inr ⟨rfl, rfl⟩⟩
        rw [addLoop_step _ _ _ _ _ hc hrest hrhs (Or.inl hpos)]
        rw [getD_of_length_le rhs _ hlen]
        simp only [List.getD_nil, List.tail_nil, List.append_nil]
        rw [addLoop_done _ _ _ _ (by simp) (Nat.le_succ_of_le hlen)]
    · -- at least one digit is left
      have hgo : carry > 0 ∨ 0 < rest.length ∨ done.length < rhs.length := go_of_max_ne hM
      have hl : rest.getD 0 0 < 10 := getD_lt_ten hrest 0
      have hr : rhs.getD done.length 0 < 10 := getD_lt_ten hrhs _
      have hrest2 : ∀ d ∈ rest.tail, d < 10 := fun d hd => hrest d (List.mem_of_mem_tail hd)
      have hvr : val rest = rest.getD 0 0 + 10 * val rest.tail := by
        cases rest <;> simp
      have hM2 := max_pred hM
      rw [hM2] at hfuel ⊢
      rw [addLoop_step _ _ _ _ _ hc hrest hrhs hgo, val_drop rhs done.length, hvr]
      generalize rest.getD 0 0 = l at *
      generalize rhs.getD done.length 0 = r at *
      have hlen2 : (done ++ [(carry + (l + r)) % 10]).length = done.length + 1 := by simp
      obtain ⟨out, ho1, ho2, ho3, ho4, ho5⟩ :=
        ih (done ++ [(carry + (l + r)) % 10]) rest.tail ((carry + (l + r)) / 10)
          (carry_le_one hc hl hr) hrest2
          (by rw [hlen2, List.length_tail]; exact Nat.le_of_succ_le_succ hfuel)
      rw [hlen2] at ho1 ho2 ho4 ho5
      rw [List.length_tail] at ho4 ho5
      generalize max (rest.length - 1) (rhs.length - (done.length + 1)) = K at *
      refine ⟨(carry + (l + r)) % 10 :: out, ?_, ?_, ?_, ?_, ?_⟩
      · rw [ho1]; simp
      · rw [val_cons, ho2]; exact add_digit_eq _ _ _ _ _
      · intro d hd
        rcases List.mem_cons.mp hd with h | h
        · rw [h]; exact Nat.mod_lt _ (by norm_num)
        · exact ho3 d h
      · intro _ h; exact absurd h (Nat.succ_ne_zero _)
      · rw [List.length_cons]
        rcases ho5 with h | ⟨h, hlast⟩
        · left; rw [h]
        · right
          refine ⟨by rw [h], ?_⟩
          cases out with
          | nil => simp at h
          | cons y ys => simpa using hlast

/-! ## The borrow loop of `operator-` -/

/-- With a minuend that is not smaller than the subtrahend the borrow loop stops and
writes the difference. -/
theorem subLoop_spec (fuel : Nat) (minuend subtrahend : List Nat) (pos borrowed : Nat)
    (acc : List Nat) (hb : borrowed ≤ 1) (hm : ∀ d ∈ minuend, d < 10)
    (hs : ∀ d ∈ subtrahend, d < 10)
    (hge : val (subtrahend.drop pos) + borrowed ≤ val (minuend.drop pos))
    (hfuel : max (minuend.length - pos) (subtrahend.length - pos) + 1 ≤ fuel) :
    ∃ out, subLoop fuel minuend subtrahend pos borrowed acc = .ok (acc ++ out) ∧
      val out + val (subtrahend.drop pos) + borrowed = val (minuend.drop pos) ∧
      (∀ d ∈ out, d < 10) ∧
      out.length = max (minuend.length - pos) (subtrahend.length - pos) := by
  induction fuel generalizing pos borrowed acc with
  | zero => exact absurd hfuel (by simp)
  | succ fuel ih =>
    by_cases hK : max (minuend.length - pos) (subtrahend.length - pos) = 0
    · have h1 : minuend.drop pos = [] := List.drop_of_length_le
        (Nat.sub_eq_zero_iff_le.mp (Nat.eq_zero_of_le_zero (hK ▸ le_max_left _ _)))
      have h2 : subtrahend.drop pos = [] := List.drop_of_length_le
        (Nat.sub_eq_zero_iff_le.mp (Nat.eq_zero_of_le_zero (hK ▸ le_max_right _ _)))
      have hnot : ¬ (0 > 0 ∨ pos < minuend.length ∨ pos < subtrahend.length) := by
        clear ih hge hfuel h1 h2; omega
      rw [h1, h2] at hge ⊢
      simp only [val_nil, Nat.zero_add] at hge
      have hb0 : borrowed = 0 := Nat.eq_zero_of_le_zero hge
      subst hb0
      refine ⟨[], ?_, by simp, by simp, by simp [hK]⟩
      unfold subLoop
      rw [if_neg hnot]; simp
    · have hgo : borrowed > 0 ∨ pos < minuend.length ∨ pos < subtrahend.length :=
        go_of_max_sub_ne hK
      have hmd : minuend.getD pos 0 < 10 := getD_lt_ten hm _
      have hsd : subtrahend.getD pos 0 < 10 := getD_lt_ten hs _
      have hK2 := max_sub_succ hK
      rw [hK2] at hfuel ⊢
      have hfuel2 := Nat.le_of_succ_le_succ hfuel
      rw [val_drop minuend pos, val_drop subtrahend pos] at hge ⊢
      unfold subLoop
      rw [if_pos hgo, digitAt_eq, digitAt_eq]
      generalize minuend.getD pos 0 = m at *
      generalize subtrahend.getD pos 0 = s at *
      have hu : u8 (s + borrowed) = s + borrowed := by unfold u8; clear ih hge; omega
      simp only [bind, Except.bind, hu]
      by_cases hlt : m < s + borrowed
      · obtain ⟨b1, b2, b3, b4, b5⟩ := borrow_step hmd hsd hb hge hlt
        have hu3 : u8 (0 + 1) = 1 := by decide
        rw [show decide (m < s + borrowed) = true from decide_eq_true hlt]
        simp only [if_true, b3, hu3, b4]
        obtain ⟨out, ho1, ho2, ho3, ho4⟩ :=
          ih (pos + 1) 1 (acc ++ [m + 10 - (s + borrowed)]) (le_refl _) b1 hfuel2
        refine ⟨(m + 10 - (s + borrowed)) :: out, ?_, ?_, ?_, ?_⟩
        · rw [ho1]; simp
        · rw [val_cons]; exact b5 _ ho2
        · intro d hd
          rcases List.mem_cons.mp hd with h | h
          · rw [h]; exact b2
          · exact ho3 d h
        · rw [List.length_cons, ho4]
      · obtain ⟨b1, b2, b4, b5⟩ := noborrow_step hmd hsd hb hge hlt
        rw [show decide (m < s + borrowed) = false from decide_eq_false hlt]
        simp only [Bool.false_eq_true, if_false, b4]
        obtain ⟨out, ho1, ho2, ho3, ho4⟩ :=
          ih (pos + 1) 0 (acc ++ [m - (s + borrowed)]) (Nat.zero_le _) b1 hfuel2
        refine ⟨(m - (s + borrowed)) :: out, ?_, ?_, ?_, ?_⟩
        · rw [ho1]; simp
        · rw [val_cons]; exact b5 _ ho2
        · intro d hd
          rcases List.mem_cons.mp hd with h | h
          · rw [h]; exact b2
          · exact ho3 d h
        · rw [List.length_cons, ho4]

/-! ## `operator+` and `operator-` -/

theorem add_succ (fuel : Nat) (lhs rhs : BigNum) :
    add (fuel + 1) lhs rhs =
      (if lhs.isNegative && !rhs.isNegative then
        sub fuel rhs { lhs with isNegative := false }
      else if !lhs.isNegative && rhs.isNegative then
        sub fuel lhs { rhs with isNegative := false }
      else do
        let value ← addLoop fuel lhs._value rhs._value 0 0
        .ok { lhs with _value := value }) := by
  rw [add]

theorem sub_succ (fuel : Nat) (lhs rhs : BigNum) :
    sub (fuel + 1) lhs rhs =
      (if lhs.isNegative && !rhs.isNegative then
        add fuel lhs { rhs with isNegative := true }
      else if !lhs.isNegative && rhs.isNegative then
        add fuel lhs { rhs with isNegative := false }
      else do
        let resultIsNegative := false
        let reverse := false
        let less ← (if !lhs.isNegative then lt lhs rhs else pure false)
        let resultIsNegative := if less then true else resultIsNegative
        let reverse := if less then true else reverse
        let less ← (if lhs.isNegative then lt lhs rhs else pure false)
        let resultIsNegative := if lhs.isNegative && less then true else resultIsNegative
        let reverse := if lhs.isNegative && !less then true else reverse
        let minuend := if reverse then rhs else lhs
        let subtrahend := if reverse then lhs else rhs
        let resultValues ← subLoop fuel minuend._value subtrahend._value 0 0 []
        ofVector fuel resultValues resultIsNegative) := by
  rw [sub]

theorem canonical_of_sum {a b out : List Nat} (ha : Canonical a) (hb : Canonical b)
    (hd : ∀ d ∈ out, d < 10) (hv : val out = val a + val b)
    (hlen : out.length = max a.length b.length ∨
      (out.length = max a.length b.length + 1 ∧ out.getLast? = some 1)) :
    Canonical out := by
  have hpa := ha.length_pos
  have hne : out ≠ [] := by
    apply List.ne_nil_of_length_pos
    rcases hlen with h | ⟨h, _⟩ <;> omega
  refine ⟨hne, hd, ?_⟩
  by_cases htop : out.getLast? = some 0
  · right
    rcases hlen with h | ⟨_, h⟩
    · have hlt := val_lt_of_top_zero hd htop
      rw [h] at hlt
      -- the longer operand
      obtain ⟨x, hx, hxlen, hxle⟩ : ∃ x, Canonical x ∧ x.length = max a.length b.length ∧
          val x ≤ val out := by
        rcases Nat.le_total a.length b.length with hab | hab
        · exact ⟨b, hb, by omega, by omega⟩
        · exact ⟨a, ha, by omega, by omega⟩
      rw [← hxlen] at hlt h
      rcases hx.2.2 with hxt | hx0
      · have := pow_le_val hx.1 hxt
        omega
      · subst hx0
        simp only [List.length_singleton, Nat.sub_self, pow_zero] at hlt h
        have hv0 : val out = 0 := by omega
        match out, h, hv0 with
        | [d], _, hv0 =>
          simp only [val_cons, val_nil] at hv0
          have : d = 0 := by omega
          rw [this]
    · rw [h] at htop; cases htop
  · left; exact htop

/-- Same-sign operands: `operator+` adds the magnitudes and keeps the sign. -/
theorem add_same {lhs rhs : BigNum} (hs : lhs.isNegative = rhs.isNegative)
    (hl : Canonical lhs._value) (hr : Canonical rhs._value) (fuel : Nat)
    (hfuel : max lhs._value.length rhs._value.length + 2 ≤ fuel) :
    ∃ out, add (fuel + 1) lhs rhs = .ok { _value := out, isNegative := lhs.isNegative } ∧
      val out = val lhs._value + val rhs._value ∧ Canonical out := by
  obtain ⟨out, h1, h2, h3, _, h5⟩ :=
    addLoop_spec fuel [] lhs._value rhs._value 0 (Nat.zero_le _) hl.2.1 hr.2.1
      (by simpa using hfuel)
  simp only [List.nil_append, List.length_nil, Nat.sub_zero, List.drop_zero, Nat.zero_add]
    at h1 h2 h5
  refine ⟨out, ?_, h2, canonical_of_sum hl hr h3 h2 h5⟩
  rw [add_succ, ← hs]
  cases lhs.isNegative <;> simp [h1, bind, Except.bind]

theorem sub_same_aux (fuel : Nat) (minuend subtrahend : List Nat) (neg : Bool)
    (hm : ∀ d ∈ minuend, d < 10) (hs : ∀ d ∈ subtrahend, d < 10)
    (hge : val subtrahend ≤ val minuend)
    (hfuel : max minuend.length subtrahend.length + 1 ≤ fuel) :
    ∃ out, (do
        let resultValues ← subLoop fuel minuend subtrahend 0 0 []
        ofVector fuel resultValues neg) = .ok { _value := out, isNegative := neg } ∧
      val out + val subtrahend = val minuend ∧ Canonical out := by
  obtain ⟨out, h1, h2, h3, h4⟩ :=
    subLoop_spec fuel minuend subtrahend 0 0 [] (Nat.zero_le _) hm hs (by simpa using hge)
      (by simpa using hfuel)
  simp only [List.nil_append, List.drop_zero, Nat.add_zero, Nat.sub_zero] at h1 h2 h4
  refine ⟨normalize out, ?_, by rw [val_normalize]; exact h2,
    normalize_ne_nil _, normalize_digits h3, normalize_top _⟩
  rw [h1]
  simp only [bind, Except.bind]
  rw [ofVector_eq _ _ _ (by omega)]

/-- Same-sign operands: `operator-` subtracts the smaller magnitude from the larger one. -/
theorem sub_same {lhs rhs : BigNum} (hs : lhs.isNegative = rhs.isNegative)
    (hl : Valid lhs) (hr : Valid rhs) (fuel : Nat)
    (hfuel : max lhs._value.length rhs._value.length + 1 ≤ fuel) :
    ∃ r, sub (fuel + 1) lhs rhs = .ok r ∧ toInt r = toInt lhs - toInt rhs ∧ Valid r := by
  have hlt := lt_eq hl hr
  obtain ⟨lv, ln⟩ := lhs
  obtain ⟨rv, rn⟩ := rhs
  simp only at hs hfuel
  subst hs
  have hlc : Canonical lv := hl.1
  have hrc : Canonical rv := hr.1
  rw [sub_succ]
  cases ln
  · -- both non-negative
    simp only [toInt, Bool.false_eq_true, if_false, Nat.cast_lt] at hlt ⊢
    simp only [Bool.false_and, Bool.not_false, Bool.and_false, Bool.false_eq_true, if_false,
      if_true, hlt, bind, Except.bind, pure, Except.pure]
    by_cases hc : val lv < val rv
    · simp only [hc, decide_True, if_true]
      obtain ⟨out, h1, h2, h3⟩ := sub_same_aux fuel rv lv true hrc.2.1 hlc.2.1 (by omega)
        (by omega)
      refine ⟨_, h1, ?_, h3, ?_⟩
      · simp only [toInt, if_true]; omega
      · intro h0
        simp only at h0
        rw [h0] at h2
        simp only [val_cons, val_nil] at h2
        omega
    · simp only [hc, decide_False, Bool.false_eq_true, if_false]
      obtain ⟨out, h1, h2, h3⟩ := sub_same_aux fuel lv rv false hlc.2.1 hrc.2.1 (by omega)
        (by omega)
      refine ⟨_, h1, ?_, h3, fun _ => rfl⟩
      simp only [toInt, Bool.false_eq_true, if_false]; omega
  · -- both negative
    simp only [toInt, if_true, neg_lt_neg_iff, Nat.cast_lt] at hlt ⊢
    simp only [Bool.true_and, Bool.not_true, Bool.and_false, Bool.false_and,
      Bool.false_eq_true, if_false, if_true, hlt, bind, Except.bind, pure, Except.pure]
    by_cases hc : val rv < val lv
    · simp only [hc, decide_True, if_true, Bool.not_true, Bool.false_eq_true, if_false]
      obtain ⟨out, h1, h2, h3⟩ := sub_same_aux fuel lv rv true hlc.2.1 hrc.2.1 (by omega)
        (by omega)
      refine ⟨_, h1, ?_, h3, ?_⟩
      · simp only [toInt, if_true]; omega
      · intro h0
        simp only at h0
        rw [h0] at h2
        simp only [val_cons, val_nil] at h2
        omega
    · simp only [hc, decide_False, Bool.false_eq_true, if_false, Bool.not_false, if_true]
      obtain ⟨out, h1, h2, h3⟩ := sub_same_aux fuel rv lv false hrc.2.1 hlc.2.1 (by omega)
        (by omega)
      refine ⟨_, h1, ?_, h3, fun _ => rfl⟩
      simp only [toInt, Bool.false_eq_true, if_false]; omega

theorem Valid.abs {b : BigNum} (h : Valid b) :
    Valid { _value := b._value, isNegative := false } := ⟨h.1, fun _ => rfl⟩

/-- The function `operator+` on valid operands: it returns, the result denotes the sum and
is valid. -/
theorem add_spec {a b : BigNum} (ha : Valid a) (hb : Valid b) (fuel : Nat)
    (hfuel : a._value.length + b._value.length + 4 ≤ fuel) :
    ∃ r, add fuel a b = .ok r ∧ toInt r = toInt a + toInt b ∧ Valid r := by
  obtain ⟨f, rfl⟩ : ∃ f, fuel = f + 2 := ⟨fuel - 2, by omega⟩
  obtain ⟨av, an⟩ := a
  obtain ⟨bv, bn⟩ := b
  simp only at hfuel
  cases an <;> cases bn
  · obtain ⟨out, h1, h2, h3⟩ := @add_same ⟨av, false⟩ ⟨bv, false⟩ rfl
      ha.1 hb.1 (f + 1) (by simp only; omega)
    dsimp only at h1 h2 h3
    refine ⟨_, h1, ?_, h3, fun _ => rfl⟩
    simp only [toInt, Bool.false_eq_true, if_false]; omega
  · obtain ⟨r, h1, h2, h3⟩ := @sub_same ⟨av, false⟩ ⟨bv, false⟩ rfl
      ha hb.abs f (by simp only; omega)
    refine ⟨r, ?_, ?_, h3⟩
    · rw [add_succ]; simpa using h1
    · rw [h2]; simp only [toInt, Bool.false_eq_true, if_false, if_true]; omega
  · obtain ⟨r, h1, h2, h3⟩ := @sub_same ⟨bv, false⟩ ⟨av, false⟩ rfl
      hb ha.abs f (by simp only; omega)
    refine ⟨r, ?_, ?_, h3⟩
    · rw [add_succ]; simpa using h1
    · rw [h2]; simp only [toInt, Bool.false_eq_true, if_false, if_true]; omega
  · obtain ⟨out, h1, h2, h3⟩ := @add_same ⟨av, true⟩ ⟨bv, true⟩ rfl
      ha.1 hb.1 (f + 1) (by simp only; omega)
    dsimp only at h1 h2 h3
    have hp := ha.val_pos_of_neg rfl
    simp only at hp
    refine ⟨_, h1, ?_, h3, ?_⟩
    · simp only [toInt, if_true]; omega
    · intro h0
      simp only at h0
      rw [h0] at h2
      simp only [val_cons, val_nil] at h2
      omega

/-- The function `operator-` on valid operands: it returns, the result denotes the
difference and is valid. -/
theorem sub_spec {a b : BigNum} (ha : Valid a) (hb : Valid b) (fuel : Nat)
    (hfuel : a._value.length + b._value.length + 4 ≤ fuel) :
    ∃ r, sub fuel a b = .ok r ∧ toInt r = toInt a - toInt b ∧ Valid r := by
  obtain ⟨f, rfl⟩ : ∃ f, fuel = f + 2 := ⟨fuel - 2, by omega⟩
  obtain ⟨av, an⟩ := a
  obtain ⟨bv, bn⟩ := b
  simp only at hfuel
  cases an <;> cases bn
  · exact @sub_same ⟨av, false⟩ ⟨bv, false⟩ rfl ha hb (f + 1)
      (by simp only; omega)
  · obtain ⟨out, h1, h2, h3⟩ := @add_same ⟨av, false⟩ ⟨bv, false⟩ rfl
      ha.1 hb.1 f (by simp only; omega)
    dsimp only at h1 h2 h3
    refine ⟨⟨out, false⟩, ?_, ?_, ⟨h3, fun _ => rfl⟩⟩
    · rw [sub_succ]; simpa using h1
    · simp only [toInt, Bool.false_eq_true, if_false, if_true]; omega
  · obtain ⟨out, h1, h2, h3⟩ := @add_same ⟨av, true⟩ ⟨bv, true⟩ rfl
      ha.1 hb.1 f (by simp only; omega)
    dsimp only at h1 h2 h3
    have hp := ha.val_pos_of_neg rfl
    simp only at hp
    refine ⟨⟨out, true⟩, ?_, ?_, ⟨h3, ?_⟩⟩
    · rw [sub_succ]; simpa using h1
    · simp only [toInt, Bool.false_eq_true, if_false, if_true]; omega
    · intro h0
      simp only at h0
      rw [h0] at h2
      simp only [val_cons, val_nil] at h2
      omega
  · exact @sub_same ⟨av, true⟩ ⟨bv, true⟩ rfl ha hb (f + 1)
      (by simp only; omega)

/-! ## `operator*` -/

theorem mul_digit_bound {c l r : Nat} (hc : c ≤ 8) (hl : l < 10) (hr : r < 10) :
    c + l * r ≤ 89 := by
  have h1 : l * r ≤ 9 * 9 := Nat.mul_le_mul (by omega) (by omega)
  omega

theorem guard_iff (column rhsPos len : Nat) :
    (!(decide (rhsPos > column) ||
        (decide (column ≥ len) && decide (column - len ≥ rhsPos)))) = true ↔
      (rhsPos ≤ column ∧ column - rhsPos < len) := by
  simp only [Bool.not_eq_true', Bool.or_eq_false_iff, decide_eq_false_iff_not,
    Bool.and_eq_false_imp, decide_eq_true_eq]
  omega

/-- One step of the inner loop: the row carry slot takes up the product of the column and
gives its low digit to the column sum. -/
theorem mulStep_eq (lhs rhs : List Nat) (column carry : Nat) (new old : List Nat) (c : Nat)
    (hl : ∀ d ∈ lhs, d < 10) (hr : ∀ d ∈ rhs, d < 10) (hc : c ≤ 8)
    (hj : new.length < rhs.length) :
    mulStep lhs rhs column (carry, new ++ c :: old) new.length =
      .ok (carry + (c + colProd lhs rhs column new.length) % 10,
        new ++ ((c + colProd lhs rhs column new.length) / 10) :: old) := by
  have hat : ∀ x, vecAt (new ++ x :: old) new.length = .ok x := by
    intro x
    rw [vecAt_of_lt (by simp), getD_append_length]
  have hset : ∀ x y, (new ++ x :: old).set new.length y = new ++ y :: old := by
    intro x y
    simp [List.set_append_right]
  unfold mulStep colProd
  by_cases hg : new.length ≤ column ∧ column - new.length < lhs.length
  · have hg2 := (guard_iff column new.length lhs.length).mpr hg
    have hne : lhs.length ≠ 0 := by omega
    have hmod : (column - new.length) % lhs.length = column - new.length :=
      Nat.mod_eq_of_lt hg.2
    have hb := mul_digit_bound hc (getD_lt_ten hl (column - new.length))
      (getD_lt_ten hr new.length)
    have hu : u8 (c + lhs.getD (column - new.length) 0 * rhs.getD new.length 0) =
        c + lhs.getD (column - new.length) 0 * rhs.getD new.length 0 := by
      unfold u8; omega
    simp only [hg2, if_true, hne, if_false, hmod, hat, vecAt_of_lt hg.2, vecAt_of_lt hj,
      bind, Except.bind, pure, Except.pure, hset, hu, hg, and_self]
  · have hg2 : (!(decide (new.length > column) ||
        (decide (column ≥ lhs.length) && decide (column - lhs.length ≥ new.length)))) = false := by
      rw [← Bool.not_eq_true]
      exact fun h => hg ((guard_iff column new.length lhs.length).mp h)
    simp only [hg2, Bool.false_eq_true, if_false, hat, bind, Except.bind, pure, Except.pure,
      hset, hg, Nat.add_zero]

theorem drop_eq_getD_cons {v : List Nat} {n : Nat} (h : n < v.length) :
    v.drop n = v.getD n 0 :: v.drop (n + 1) := by
  rw [List.drop_eq_getElem_cons h, List.getD_eq_getElem?_getD, List.getElem?_eq_getElem h]
  rfl

theorem sum_take_succ_getD (v : List Nat) (n : Nat) :
    (v.take (n + 1)).sum = (v.take n).sum + v.getD n 0 := by
  induction v generalizing n with
  | nil => simp
  | cons x xs ih =>
    cases n with
    | zero => simp
    | succ m =>
      simp only [List.take_succ_cons, List.sum_cons, ih m, List.getD_cons_succ]
      omega

theorem inner_arith {carry A S C0 T0 P cn : Nat}
    (h : carry + 10 * A = C0 + T0 + S) :
    carry + (cn + P) % 10 + 10 * (A + (cn + P) / 10) = C0 + (T0 + cn) + (S + P) := by
  omega

/-- The inner loop after `n` positions. -/
theorem mulInner_spec (lhs rhs : List Nat) (column carry0 : Nat) (cil0 : List Nat)
    (hl : ∀ d ∈ lhs, d < 10) (hr : ∀ d ∈ rhs, d < 10)
    (hlen : cil0.length = rhs.length) (hc : ∀ d ∈ cil0, d ≤ 8) (n : Nat)
    (hn : n ≤ rhs.length) :
    ∃ carry new, (List.range n).foldlM (mulStep lhs rhs column) (carry0, cil0) =
        .ok (carry, new ++ cil0.drop n) ∧
      new.length = n ∧ (∀ d ∈ new, d ≤ 8) ∧
      carry + 10 * new.sum =
        carry0 + (cil0.take n).sum + ∑ j in Finset.range n, colProd lhs rhs column j := by
  induction n with
  | zero => exact ⟨carry0, [], by simp [pure, Except.pure], rfl, by simp, by simp⟩
  | succ n ih =>
    obtain ⟨carry, new, h1, h2, h3, h4⟩ := ih (by omega)
    have hn2 : n < cil0.length := by omega
    have hcn : cil0.getD n 0 ≤ 8 := by
      rw [List.getD_eq_getElem?_getD, List.getElem?_eq_getElem hn2]
      exact hc _ (List.getElem_mem hn2)
    have hstep := mulStep_eq lhs rhs column carry new (cil0.drop (n + 1)) (cil0.getD n 0)
      hl hr hcn (by omega)
    rw [h2, ← drop_eq_getD_cons hn2] at hstep
    have hb : colProd lhs rhs column n ≤ 81 := by
      unfold colProd
      split
      · exact Nat.mul_le_mul (Nat.le_of_lt_succ (getD_lt_ten hl _))
          (Nat.le_of_lt_succ (getD_lt_ten hr _))
      · exact Nat.zero_le _
    refine ⟨carry + (cil0.getD n 0 + colProd lhs rhs column n) % 10,
      new ++ [(cil0.getD n 0 + colProd lhs rhs column n) / 10], ?_, ?_, ?_, ?_⟩
    · rw [List.range_succ, List.foldlM_append, h1]
      simp only [bind, Except.bind, List.foldlM_cons, List.foldlM_nil, hstep, pure,
        Except.pure, List.append_assoc, List.singleton_append]
    · simp [h2]
    · intro d hd
      rcases List.mem_append.mp hd with h | h
      · exact h3 d h
      · rw [List.mem_singleton.mp h]; omega
    · rw [List.sum_append, List.sum_singleton, sum_take_succ_getD, Finset.sum_range_succ]
      exact inner_arith h4

theorem mulColumn_spec (lhs rhs : List Nat) (column carry0 : Nat) (result cil0 : List Nat)
    (hl : ∀ d ∈ lhs, d < 10) (hr : ∀ d ∈ rhs, d < 10)
    (hlen : cil0.length = rhs.length) (hc : ∀ d ∈ cil0, d ≤ 8) :
    ∃ total new, mulColumn lhs rhs (result, carry0, cil0) column =
        .ok (result ++ [total % 10], total / 10, new) ∧
      new.length = rhs.length ∧ (∀ d ∈ new, d ≤ 8) ∧
      total + 10 * new.sum =
        carry0 + cil0.sum + ∑ j in Finset.range rhs.length, colProd lhs rhs column j := by
  obtain ⟨carry, new, h1, h2, h3, h4⟩ :=
    mulInner_spec lhs rhs column carry0 cil0 hl hr hlen hc rhs.length (le_refl _)
  rw [List.drop_of_length_le (by omega), List.append_nil] at h1
  rw [List.take_of_length_le (by omega)] at h4
  refine ⟨carry, new, ?_, h2, h3, h4⟩
  unfold mulColumn
  simp only [h1, bind, Except.bind]

theorem rowPrefix_succ (lhs rhs : List Nat) (column j : Nat) :
    rowPrefix lhs rhs (column + 1) j =
      rowPrefix lhs rhs column j + 10 ^ column * colProd lhs rhs column j := by
  unfold rowPrefix colProd
  by_cases hj : j ≤ column
  · have e : column + 1 - j = (column - j) + 1 := by omega
    have hp : (10 : Nat) ^ column = 10 ^ j * 10 ^ (column - j) := by
      rw [← pow_add]; congr 1; omega
    rw [e, val_take_succ, hp]
    by_cases hlt : column - j < lhs.length
    · rw [if_pos ⟨hj, hlt⟩]; ring
    · rw [if_neg (fun h => hlt h.2), getD_of_length_le lhs _ (by omega)]; ring
  · have e1 : column + 1 - j = 0 := by omega
    have e2 : column - j = 0 := by omega
    rw [if_neg (fun h => hj h.1), e1, e2]; simp

theorem outer_arith {V P tot N carry S Tn Cp : Nat}
    (h1 : V + P * (carry + S) = Tn) (h2 : tot + 10 * N = carry + S + Cp) :
    V + P * (tot % 10) + P * 10 * (tot / 10 + N) = Tn + P * Cp := by
  have h3 : tot % 10 + 10 * (tot / 10) = tot := Nat.mod_add_div tot 10
  have h4 : V + P * (tot % 10) + P * 10 * (tot / 10 + N) =
      V + P * (tot % 10 + 10 * (tot / 10) + 10 * N) := by ring
  rw [h4, h3, Nat.add_comm tot, Nat.add_comm] at *
  rw [← h1]
  have : 10 * N + tot = tot + 10 * N := Nat.add_comm _ _
  rw [this, h2]; ring

/-- The column loop after `n` columns: the digits written so far, the running carry and
the row carries together hold the rows of the long multiplication up to column `n`. -/
theorem mulOuter_spec (lhs rhs : List Nat) (hl : ∀ d ∈ lhs, d < 10) (hr : ∀ d ∈ rhs, d < 10)
    (n : Nat) :
    ∃ result carry cil, (List.range n).foldlM (mulColumn lhs rhs)
        ([], 0, List.replicate rhs.length 0) = .ok (result, carry, cil) ∧
      result.length = n ∧ (∀ d ∈ result, d < 10) ∧
      cil.length = rhs.length ∧ (∀ d ∈ cil, d ≤ 8) ∧
      val result + 10 ^ n * (carry + cil.sum) =
        ∑ j in Finset.range rhs.length, rowPrefix lhs rhs n j := by
  induction n with
  | zero =>
    refine ⟨[], 0, List.replicate rhs.length 0, by simp [pure, Except.pure], rfl, by simp,
      by simp, ?_, ?_⟩
    · intro d hd
      rw [(List.mem_replicate.mp hd).2]; omega
    · simp [rowPrefix]
  | succ n ih =>
    obtain ⟨result, carry, cil, h1, h2, h3, h4, h5, h6⟩ := ih
    obtain ⟨total, new, g1, g2, g3, g4⟩ := mulColumn_spec lhs rhs n carry result cil hl hr h4 h5
    refine ⟨result ++ [total % 10], total / 10, new, ?_, by simp [h2], ?_, g2, g3, ?_⟩
    · rw [List.range_succ, List.foldlM_append, h1]
      simp only [bind, Except.bind, List.foldlM_cons, List.foldlM_nil, g1, pure, Except.pure]
    · intro d hd
      rcases List.mem_append.mp hd with h | h
      · exact h3 d h
      · rw [List.mem_singleton.mp h]; exact Nat.mod_lt _ (by norm_num)
    · rw [val_concat, h2, pow_succ]
      simp only [rowPrefix_succ, Finset.sum_add_distrib, ← Finset.mul_sum]
      exact outer_arith h6 g4

theorem val_eq_sum (v : List Nat) :
    val v = ∑ j in Finset.range v.length, 10 ^ j * v.getD j 0 := by
  induction v with
  | nil => simp
  | cons x xs ih =>
    rw [List.length_cons, Finset.sum_range_succ', val_cons, ih, Finset.mul_sum]
    simp only [List.getD_cons_succ, List.getD_cons_zero, pow_zero, one_mul, pow_succ]
    rw [Nat.add_comm]
    congr 1
    apply Finset.sum_congr rfl
    intro j _; ring

theorem sum_rowPrefix_final (lhs rhs : List Nat) :
    ∑ j in Finset.range rhs.length, rowPrefix lhs rhs (lhs.length + rhs.length) j =
      val lhs * val rhs := by
  rw [val_eq_sum rhs, Finset.mul_sum]
  apply Finset.sum_congr rfl
  intro j hj
  have hj2 : j < rhs.length := Finset.mem_range.mp hj
  unfold rowPrefix
  rw [List.take_of_length_le (by omega)]
  ring

/-- The column loop of `operator*` returns the digits of the product of the magnitudes. -/
theorem mulLoop_spec (lhs rhs : List Nat) (hl : ∀ d ∈ lhs, d < 10) (hr : ∀ d ∈ rhs, d < 10) :
    ∃ result carry cil, (List.range (lhs.length + rhs.length)).foldlM (mulColumn lhs rhs)
        ([], 0, List.replicate rhs.length 0) = .ok (result, carry, cil) ∧
      result.length = lhs.length + rhs.length ∧ (∀ d ∈ result, d < 10) ∧
      carry = 0 ∧ val result = val lhs * val rhs := by
  obtain ⟨result, carry, cil, h1, h2, h3, h4, h5, h6⟩ :=
    mulOuter_spec lhs rhs hl hr (lhs.length + rhs.length)
  rw [sum_rowPrefix_final] at h6
  have hb : val lhs * val rhs < 10 ^ (lhs.length + rhs.length) := by
    rw [pow_add]
    exact Nat.mul_lt_mul'' (val_lt_pow hl) (val_lt_pow hr)
  have hz : carry + cil.sum = 0 := by
    rcases Nat.eq_zero_or_pos (carry + cil.sum) with h | h
    · exact h
    · have : 10 ^ (lhs.length + rhs.length) * 1 ≤
          10 ^ (lhs.length + rhs.length) * (carry + cil.sum) := Nat.mul_le_mul_left _ h
      omega
  refine ⟨result, carry, cil, h1, h2, h3, by omega, ?_⟩
  rw [hz] at h6
  simpa using h6

theorem normalize_isZero (v : List Nat) :
    (if (normalize v).length = 1 then do
        let d ← vecAt (normalize v) 0
        pure (decide (d = 0))
      else (pure false : Except Error Bool)) = .ok (decide (val v = 0)) := by
  by_cases h0 : val v = 0
  · rw [(normalize_eq_zero_iff v).mpr h0]
    simp [vecAt, bind, Except.bind, pure, Except.pure, h0]
  · have hne : normalize v ≠ [0] := fun h => h0 ((normalize_eq_zero_iff v).mp h)
    by_cases h1 : (normalize v).length = 1
    · obtain ⟨d, hd⟩ := List.length_eq_one.mp h1
      have hd0 : d ≠ 0 := by
        intro h; apply hne; rw [hd, h]
      rw [hd]
      simp [vecAt, bind, Except.bind, pure, Except.pure, hd0, h0]
    · simp [h1, h0, pure, Except.pure]

/-- The function `operator*` on operands with decimal digits: it returns the normalised
digits of the product of the magnitudes, with the sign forced to non-negative for zero. -/
theorem mul_eq {a b : BigNum} (ha : ∀ d ∈ a._value, d < 10) (hb : ∀ d ∈ b._value, d < 10)
    (fuel : Nat) (hfuel : a._value.length + b._value.length + 1 ≤ fuel) :
    ∃ result, val result = val a._value * val b._value ∧ (∀ d ∈ result, d < 10) ∧
      mul fuel a b = .ok ⟨normalize result,
        if val result = 0 then false else (a.isNegative != b.isNegative)⟩ := by
  obtain ⟨result, carry, cil, h1, h2, h3, _, h5⟩ := mulLoop_spec a._value b._value ha hb
  refine ⟨result, h5, h3, ?_⟩
  unfold mul
  simp only [h1, bind, Except.bind]
  rw [deleteZeroPrefix_eq _ _ (by omega)]
  simp only []
  have hz := normalize_isZero result
  simp only [bind, Except.bind] at hz
  rw [hz]
  simp only []
  rw [ofVector_eq _ _ _ (by omega)]
  by_cases h0 : val result = 0 <;> simp [h0]

/-- The function `operator*` on valid operands: it returns, the result denotes the product
and is valid. -/
theorem mul_spec {a b : BigNum} (ha : Valid a) (hb : Valid b) (fuel : Nat)
    (hfuel : a._value.length + b._value.length + 1 ≤ fuel) :
    ∃ r, mul fuel a b = .ok r ∧ toInt r = toInt a * toInt b ∧ Valid r := by
  obtain ⟨result, h1, h2, h3⟩ := mul_eq ha.1.2.1 hb.1.2.1 fuel hfuel
  refine ⟨_, h3, ?_, ⟨normalize_ne_nil _, normalize_digits h2, normalize_top _⟩, ?_⟩
  · simp only [toInt, val_normalize]
    by_cases h0 : val result = 0
    · have : val a._value * val b._value = 0 := by rw [← h1]; exact h0
      have hz : (val a._value : Int) * (val b._value : Int) = 0 := by exact_mod_cast this
      simp only [h0, if_true, Bool.false_eq_true, if_false, Nat.cast_zero]
      cases a.isNegative <;> cases b.isNegative <;> simp [hz]
    · rw [if_neg h0, h1, Nat.cast_mul]
      cases a.isNegative <;> cases b.isNegative <;> simp
  · intro hz
    simp only at hz
    have h0 : val result = 0 := (normalize_eq_zero_iff _).mp hz
    simp [h0]

/-! ## The string constructor -/

theorem strAt_append (pre body : List Char) (k : Nat) (h : k < body.length) :
    strAt (pre ++ body) (pre.length + k) = .ok (body.getD k 'A') := by
  rw [strAt_of_lt (by simp; omega), List.getD_eq_getElem?_getD, List.getD_eq_getElem?_getD,
    List.getElem?_append_right (by omega)]
  simp

theorem take_succ_getD (body : List Char) (k : Nat) (h : k < body.length) :
    body.take (k + 1) = body.take k ++ [body.getD k 'A'] := by
  rw [List.take_succ, List.getD_eq_getElem?_getD, List.getElem?_eq_getElem h]
  rfl

theorem u8_digit (c : Char) (h : isdigit c = true) : u8 (c.toNat - 48) = c.toNat - 48 := by
  unfold isdigit at h
  have := of_decide_eq_true h
  unfold u8; omega

theorem parseLoop_stop (fuel : Nat) (str : List Char) (value : List Nat) :
    parseLoop (fuel + 1) str true 0 value = .ok value := by
  unfold parseLoop
  simp

/-- The digit loop reads the characters from position `k` of the numeral down to its first
character, and fails at the first one that is not a digit. -/
theorem parseLoop_spec (pre body : List Char) (hasSign : Bool)
    (hoff : pre.length = if hasSign then 1 else 0) (k : Nat) (fuel : Nat) (value : List Nat)
    (hk : k < body.length) (hfuel : k + 2 ≤ fuel) :
    parseLoop fuel (pre ++ body) hasSign (pre.length + k) value =
      if (body.take (k + 1)).all isdigit = true then
        (.ok (value ++ digitsOf (body.take (k + 1))) : Except Error (List Nat))
      else .error .invalidArgument := by
  simp only [List.all_eq_true]
  induction k generalizing fuel value with
  | zero =>
    obtain ⟨f, rfl⟩ : ∃ f, fuel = f + 2 := ⟨fuel - 2, by omega⟩
    have ht : body.take 1 = [body.getD 0 'A'] := by
      rw [take_succ_getD body 0 hk]; simp
    unfold parseLoop
    have hge : pre.length + 0 ≥ (if hasSign = true then 1 else 0) := by rw [hoff]; omega
    rw [if_pos hge, strAt_append pre body 0 hk, ht]
    simp only [bind, Except.bind, List.mem_singleton, forall_eq, digitsOf, List.reverse_singleton,
      List.map_singleton]
    by_cases hd : isdigit (body.getD 0 'A') = true
    · simp only [hd, Bool.not_true, Bool.false_eq_true, if_false, if_true, u8_digit _ hd]
      cases hasSign with
      | false =>
        have h0 : pre.length = 0 := by simpa using hoff
        have : ¬ (pre.length + 0 > 0) := by rw [h0]; simp
        rw [if_neg this]
      | true =>
        have h0 : pre.length = 1 := by simpa using hoff
        have h1 : pre.length + 0 > 0 := by rw [h0]; simp
        have h2 : pre.length + 0 - 1 = 0 := by rw [h0]
        rw [if_pos h1, h2, parseLoop_stop]
    · simp only [hd, Bool.not_false, if_true, if_false]
      simp at hd
      simp [hd]
  | succ k ih =>
    obtain ⟨f, rfl⟩ : ∃ f, fuel = f + 1 := ⟨fuel - 1, by omega⟩
    unfold parseLoop
    have hge : pre.length + (k + 1) ≥ (if hasSign = true then 1 else 0) := by rw [hoff]; omega
    have hpos : pre.length + (k + 1) > 0 := by omega
    have hpred : pre.length + (k + 1) - 1 = pre.length + k := by omega
    rw [if_pos hge, strAt_append pre body (k + 1) hk, take_succ_getD body (k + 1) hk]
    simp only [bind, Except.bind, if_pos hpos, hpred]
    by_cases hd : isdigit (body.getD (k + 1) 'A') = true
    · simp only [hd, Bool.not_true, Bool.false_eq_true, if_false, u8_digit _ hd]
      rw [ih f _ (by omega) (by omega)]
      have hall : (∀ c ∈ body.take (k + 1) ++ [body.getD (k + 1) 'A'], isdigit c = true) ↔
          (∀ c ∈ body.take (k + 1), isdigit c = true) := by
        constructor
        · intro h c hc; exact h c (List.mem_append_left _ hc)
        · intro h c hc
          rcases List.mem_append.mp hc with h1 | h1
          · exact h c h1
          · rw [List.mem_singleton.mp h1]; exact hd
      by_cases hall2 : ∀ c ∈ body.take (k + 1), isdigit c = true
      · rw [if_pos hall2, if_pos (hall.mpr hall2)]
        simp [digitsOf]
      · rw [if_neg hall2, if_neg (fun h => hall2 (hall.mp h))]
    · have hnall : ¬ ∀ c ∈ body.take (k + 1) ++ [body.getD (k + 1) 'A'],
          isdigit c = true := by
        intro h
        exact hd (h _ (List.mem_append_right _ (List.mem_singleton_self _)))
      rw [if_neg hnall]
      simp at hd
      simp [hd]

theorem val_eq_zero_iff_forall (v : List Nat) : val v = 0 ↔ ∀ d ∈ v, d = 0 := by
  induction v with
  | nil => simp
  | cons x xs ih =>
    simp only [val_cons, List.mem_cons, forall_eq_or_imp, ← ih]
    omega

theorem digit_eq_zero_iff (c : Char) (h : isdigit c = true) : c.toNat - 48 = 0 ↔ c = '0' := by
  unfold isdigit at h
  have h2 := of_decide_eq_true h
  constructor
  · intro h0
    have h48 : c.toNat = 48 := by omega
    apply Char.ext
    apply UInt32.ext
    exact h48
  · intro h0; subst h0; rfl

theorem digitsOf_lt (body : List Char) (h : ∀ c ∈ body, isdigit c = true) :
    ∀ d ∈ digitsOf body, d < 10 := by
  intro d hd
  unfold digitsOf at hd
  obtain ⟨c, hc, rfl⟩ := List.mem_map.mp hd
  have := h c (List.mem_reverse.mp hc)
  unfold isdigit at this
  have h2 := of_decide_eq_true this
  omega

theorem val_digitsOf_eq_zero_iff (body : List Char) (h : ∀ c ∈ body, isdigit c = true) :
    val (digitsOf body) = 0 ↔ ∀ c ∈ body, c = '0' := by
  rw [val_eq_zero_iff_forall]
  unfold digitsOf
  constructor
  · intro h0 c hc
    exact (digit_eq_zero_iff c (h c hc)).mp
      (h0 _ (List.mem_map.mpr ⟨c, List.mem_reverse.mpr hc, rfl⟩))
  · intro h0 d hd
    obtain ⟨c, hc, rfl⟩ := List.mem_map.mp hd
    rw [h0 c (List.mem_reverse.mp hc)]
    rfl

theorem val_digitsOf (body : List Char) : val (digitsOf body) = decimalValue body := by
  unfold digitsOf decimalValue
  induction body using List.reverseRecOn with
  | nil => rfl
  | append_singleton xs x ih =>
    simp only [List.reverse_append, List.reverse_singleton, List.singleton_append, List.map_cons,
      val_cons, ih, List.foldl_append, List.foldl_cons, List.foldl_nil]
    omega

/-- The tail of the constructor, after the digit loop. -/
theorem fromString_tail (fuel : Nat) (value : List Nat) (neg : Bool)
    (hfuel : value.length < fuel) :
    (do
      let value ← deleteZeroPrefix fuel value
      if neg && value.length = 1 then do
        let d ← vecAt value 0
        if d = 0 then .error .invalidArgument
        else .ok { _value := value, isNegative := neg }
      else .ok { _value := value, isNegative := neg } : Except Error BigNum) =
      if neg = true ∧ val value = 0 then .error .invalidArgument
      else .ok { _value := normalize value, isNegative := neg } := by
  rw [deleteZeroPrefix_eq _ _ hfuel]
  simp only [bind, Except.bind]
  by_cases h0 : val value = 0
  · rw [(normalize_eq_zero_iff value).mpr h0]
    cases neg <;> simp [vecAt, h0, bind, Except.bind]
  · have hne : normalize value ≠ [0] := fun h => h0 ((normalize_eq_zero_iff value).mp h)
    by_cases h1 : (normalize value).length = 1
    · obtain ⟨d, hd⟩ := List.length_eq_one.mp h1
      have hd0 : d ≠ 0 := by
        intro h; apply hne; rw [hd, h]
      rw [hd]
      cases neg <;> simp [vecAt, h0, hd0, bind, Except.bind]
    · cases neg <;> simp [h0, h1]

/-- What the string constructor returns. -/
theorem fromString_eq (fuel : Nat) (str : List Char) (hfuel : str.length + 2 ≤ fuel) :
    fromString fuel str =
      if Rejected str then .error .invalidArgument
      else .ok { _value := normalize (digitsOf (numeral str)),
                 isNegative := decide (str.head? = some '-') } := by
  cases str with
  | nil => simp [fromString, Rejected]
  | cons c rest =>
    unfold fromString
    have hat : strAt (c :: rest) 0 = .ok c := by simp [strAt]
    simp only [List.isEmpty_cons, Bool.false_eq_true, if_false, hat, bind, Except.bind,
      if_true]
    by_cases hsign : c = '+' ∨ c = '-'
    · -- a leading sign
      have hs : signed (c :: rest) = true := by
        unfold signed
        rcases hsign with h | h <;> simp [h]
      have hnum : numeral (c :: rest) = rest := by unfold numeral; rw [if_pos hs]; rfl
      have hhas : (if c = '-' then true else if c = '+' then true else false) = true := by
        rcases hsign with h | h <;> simp [h]
      have hneg : (if c = '-' then true else false) = decide (c = '-') := by
        by_cases h : c = '-' <;> simp [h]
      rw [hhas, hneg]
      cases rest with
      | nil =>
        have : Rejected [c] := by
          unfold Rejected
          rcases hsign with h | h <;> simp [h]
        simp [this]
      | cons c2 rest2 =>
        have hlen : ¬ ((c :: c2 :: rest2).length = 1) := by simp
        simp only [Bool.true_and, decide_eq_true_eq, hlen, if_false]
        have hp := parseLoop_spec [c] (c2 :: rest2) true rfl rest2.length fuel []
          (by simp) (by simp at hfuel ⊢; omega)
        have e1 : (c :: c2 :: rest2).length - 1 = [c].length + rest2.length := by
          simp; omega
        have e2 : [c] ++ c2 :: rest2 = c :: c2 :: rest2 := rfl
        have e3 : (c2 :: rest2).take (rest2.length + 1) = c2 :: rest2 :=
          List.take_of_length_le (by simp)
        simp only [List.all_eq_true] at hp
        rw [e2, e3] at hp
        rw [e1, hp]
        by_cases hall : ∀ x ∈ c2 :: rest2, isdigit x = true
        · rw [if_pos hall]
          simp only [List.nil_append]
          have hft := fromString_tail fuel (digitsOf (c2 :: rest2)) (decide (c = '-'))
            (by simp [digitsOf] at hfuel ⊢; omega)
          simp only [bind, Except.bind] at hft
          rw [hft]
          simp only [val_digitsOf_eq_zero_iff _ hall]
          have hrej : Rejected (c :: c2 :: rest2) ↔
              (decide (c = '-') = true ∧ ∀ x ∈ c2 :: rest2, x = '0') := by
            unfold Rejected
            rw [hnum]
            constructor
            · rintro (h | h | h | ⟨x, hx, hx2⟩ | ⟨h1, h2⟩)
              · cases h
              · simp at h
              · simp at h
              · rw [hall x hx] at hx2; cases hx2
              · exact ⟨by simpa using h1, h2⟩
            · rintro ⟨h1, h2⟩
              exact Or.inr (Or.inr (Or.inr (Or.inr ⟨by simpa using h1, h2⟩)))
          by_cases hz : decide (c = '-') = true ∧ ∀ x ∈ c2 :: rest2, x = '0'
          · rw [if_pos hz, if_pos (hrej.mpr hz)]
          · rw [if_neg hz, if_neg (fun h => hz (hrej.mp h)), hnum]
            simp
        · rw [if_neg hall]
          have : Rejected (c :: c2 :: rest2) := by
            unfold Rejected
            rw [hnum]
            refine Or.inr (Or.inr (Or.inr (Or.inl ?_)))
            by_contra hcon
            apply hall
            intro x hx
            by_contra hx2
            exact hcon ⟨x, hx, by simpa using hx2⟩
          simp [this]
    · -- no sign
      have hc1 : c ≠ '+' := fun h => hsign (Or.inl h)
      have hc2 : c ≠ '-' := fun h => hsign (Or.inr h)
      have hs : signed (c :: rest) = false := by
        unfold signed; simp [hc1, hc2]
      have hnum : numeral (c :: rest) = c :: rest := by unfold numeral; rw [hs]; rfl
      simp only [hc1, hc2, if_false, Bool.false_and, Bool.false_eq_true]
      have hp := parseLoop_spec [] (c :: rest) false rfl rest.length fuel []
        (by simp) (by simp at hfuel ⊢; omega)
      have e1 : (c :: rest).length - 1 = ([] : List Char).length + rest.length := by simp
      have e3 : (c :: rest).take (rest.length + 1) = c :: rest :=
        List.take_of_length_le (by simp)
      simp only [List.all_eq_true] at hp
      rw [List.nil_append, e3] at hp
      rw [e1, hp]
      by_cases hall : ∀ x ∈ c :: rest, isdigit x = true
      · rw [if_pos hall]
        simp only [List.nil_append]
        rw [deleteZeroPrefix_eq _ _ (by simp [digitsOf] at hfuel ⊢; omega)]
        have hrej : ¬ Rejected (c :: rest) := by
          unfold Rejected
          rw [hnum]
          rintro (h | h | h | ⟨x, hx, hx2⟩ | ⟨h1, h2⟩)
          · cases h
          · simp at h; exact hc1 h.1
          · simp at h; exact hc2 h.1
          · rw [hall x hx] at hx2; cases hx2
          · simp at h1; exact hc2 h1
        rw [if_neg hrej, hnum]
        simp [hc2]
      · rw [if_neg hall]
        have : Rejected (c :: rest) := by
          unfold Rejected
          rw [hnum]
          refine Or.inr (Or.inr (Or.inr (Or.inl ?_)))
          by_contra hcon
          apply hall
          intro x hx
          by_contra hx2
          exact hcon ⟨x, hx, by simpa using hx2⟩
        simp [this]

/-! ## Rendering and the round trip through the string constructor -/

theorem toDigits_digit (d : Nat) (h : d < 10) : Nat.toDigits 10 d = [Nat.digitChar d] := by
  interval_cases d <;> rfl

theorem digitChar_isdigit (d : Nat) (h : d < 10) : isdigit (Nat.digitChar d) = true := by
  interval_cases d <;> rfl

theorem digitChar_toNat (d : Nat) (h : d < 10) : (Nat.digitChar d).toNat - 48 = d := by
  interval_cases d <;> rfl

theorem digitChar_ne_sign (d : Nat) (h : d < 10) :
    Nat.digitChar d ≠ '+' ∧ Nat.digitChar d ≠ '-' := by
  interval_cases d <;> decide

/-- On decimal digits `operator<<` writes one character per digit. -/
theorem toDecimalString_eq (x : BigNum) (h : ∀ d ∈ x._value, d < 10) :
    toDecimalString x =
      (if x.isNegative then ['-'] else []) ++ x._value.reverse.map Nat.digitChar := by
  unfold toDecimalString
  congr 1
  have hr : ∀ d ∈ x._value.reverse, d < 10 := fun d hd => h d (List.mem_reverse.mp hd)
  generalize x._value.reverse = l at hr
  induction l with
  | nil => rfl
  | cons y ys ih =>
    simp only [List.map_cons, List.flatten_cons]
    rw [toDigits_digit y (hr y (List.mem_cons_self _ _)),
      ih (fun d hd => hr d (List.mem_cons_of_mem _ hd))]
    rfl

theorem digitsOf_map_digitChar (v : List Nat) (h : ∀ d ∈ v, d < 10) :
    digitsOf (v.reverse.map Nat.digitChar) = v := by
  unfold digitsOf
  rw [← List.map_reverse, List.reverse_reverse, List.map_map]
  induction v with
  | nil => rfl
  | cons y ys ih =>
    simp only [List.map_cons, Function.comp_apply]
    rw [digitChar_toNat y (h y (List.mem_cons_self _ _)),
      ih (fun d hd => h d (List.mem_cons_of_mem _ hd))]

theorem map_digitChar_isdigit (v : List Nat) (h : ∀ d ∈ v, d < 10) :
    ∀ c ∈ v.reverse.map Nat.digitChar, isdigit c = true := by
  intro c hc
  obtain ⟨d, hd, rfl⟩ := List.mem_map.mp hc
  exact digitChar_isdigit d (h d (List.mem_reverse.mp hd))

theorem head_map_digitChar (v : List Nat) (hne : v ≠ []) (h : ∀ d ∈ v, d < 10) :
    ∃ c rest, v.reverse.map Nat.digitChar = c :: rest ∧ c ≠ '+' ∧ c ≠ '-' := by
  have hr : v.reverse ≠ [] := by simpa using hne
  match hv : v.reverse, hr with
  | y :: ys, _ =>
    have hy : y ∈ v := List.mem_reverse.mp (by rw [hv]; exact List.mem_cons_self _ _)
    exact ⟨Nat.digitChar y, ys.map Nat.digitChar, rfl, digitChar_ne_sign y (h y hy)⟩

/-- Parsing what `operator<<` writes gives the number back. -/
theorem fromString_toDecimalString {x : BigNum} (hx : Valid x) (fuel : Nat)
    (hfuel : x._value.length + 3 ≤ fuel) :
    fromString fuel (toDecimalString x) = .ok x := by
  have hd := hx.1.2.1
  obtain ⟨c, rest, hbody, hc1, hc2⟩ := head_map_digitChar x._value hx.1.1 hd
  have hall := map_digitChar_isdigit x._value hd
  have hdig := digitsOf_map_digitChar x._value hd
  have hnorm : normalize x._value = x._value := normalize_eq_self hx.1.1 hx.1.2.2
  have hlen : (x._value.reverse.map Nat.digitChar).length = x._value.length := by simp
  obtain ⟨xv, xn⟩ := x
  simp only at hd hbody hall hdig hnorm hlen hfuel
  rw [toDecimalString_eq _ hd]
  simp only
  cases xn with
  | false =>
    simp only [Bool.false_eq_true, if_false, List.nil_append]
    rw [fromString_eq _ _ (by rw [hlen]; omega)]
    have hs : signed (xv.reverse.map Nat.digitChar) = false := by
      rw [hbody]; unfold signed; simp [hc1, hc2]
    have hnum : numeral (xv.reverse.map Nat.digitChar) = xv.reverse.map Nat.digitChar := by
      unfold numeral; rw [hs]; rfl
    have hrej : ¬ Rejected (xv.reverse.map Nat.digitChar) := by
      unfold Rejected
      rw [hnum]
      rintro (h | h | h | ⟨y, hy, hy2⟩ | ⟨h1, h2⟩)
      · rw [hbody] at h; cases h
      · rw [hbody] at h; simp at h; exact hc1 h.1
      · rw [hbody] at h; simp at h; exact hc2 h.1
      · rw [hall y hy] at hy2; cases hy2
      · rw [hbody] at h1; simp at h1; exact hc2 h1
    rw [if_neg hrej, hnum, hdig, hnorm, hbody]
    simp [hc2]
  | true =>
    simp only [if_true, List.singleton_append]
    rw [fromString_eq _ _ (by simp only [List.length_cons, hlen]; omega)]
    have hs : signed ('-' :: xv.reverse.map Nat.digitChar) = true := by
      unfold signed; simp
    have hnum : numeral ('-' :: xv.reverse.map Nat.digitChar) =
        xv.reverse.map Nat.digitChar := by
      unfold numeral; rw [hs]; rfl
    have hpos := hx.val_pos_of_neg rfl
    simp only at hpos
    have hrej : ¬ Rejected ('-' :: xv.reverse.map Nat.digitChar) := by
      unfold Rejected
      rw [hnum]
      rintro (h | h | h | ⟨y, hy, hy2⟩ | ⟨h1, h2⟩)
      · cases h
      · simp at h
      · rw [hbody] at h; simp at h
      · rw [hall y hy] at hy2; cases hy2
      · have := (val_digitsOf_eq_zero_iff _ hall).mpr h2
        rw [hdig] at this
        omega
    rw [if_neg hrej, hnum, hdig, hnorm]
    simp

/-! ## The integer constructor -/

theorem fromIntegerLoop_spec (fuel n : Nat) (value : List Nat) (h : n < 10 ^ fuel) :
    ∃ out, fromIntegerLoop (fuel + 1) (n : Int) value = .ok (value ++ out) ∧
      val out = n ∧ (∀ d ∈ out, d < 10) ∧ out.getLast? ≠ some 0 := by
  induction fuel generalizing n value with
  | zero =>
    have h0 : n = 0 := by simpa using h
    subst h0
    exact ⟨[], by simp [fromIntegerLoop], rfl, by simp, by simp⟩
  | succ fuel ih =>
    rcases Nat.eq_zero_or_pos n with h0 | hpos
    · subst h0
      exact ⟨[], by simp [fromIntegerLoop], rfl, by simp, by simp⟩
    · have hlt : n / 10 < 10 ^ fuel := by
        rw [pow_succ] at h
        exact Nat.div_lt_of_lt_mul (by rw [Nat.mul_comm]; exact h)
      obtain ⟨out, h1, h2, h3, h4⟩ := ih (n / 10) (value ++ [n % 10]) hlt
      have hgt : (n : Int) > 0 := by exact_mod_cast hpos
      have e1 : (n : Int).tdiv 10 = ((n / 10 : Nat) : Int) := (Int.ofNat_tdiv n 10).symm
      have e2 : (((n : Int).tmod 10) % 256).toNat = n % 10 := by
        have : (n : Int).tmod 10 = ((n % 10 : Nat) : Int) := (Int.ofNat_tmod n 10).symm
        rw [this]
        omega
      refine ⟨(n % 10) :: out, ?_, ?_, ?_, ?_⟩
      · rw [fromIntegerLoop, if_pos hgt, e1, e2, h1]
        simp
      · rw [val_cons, h2]; omega
      · intro d hd
        rcases List.mem_cons.mp hd with hh | hh
        · rw [hh]; exact Nat.mod_lt _ (by norm_num)
        · exact h3 d hh
      · cases out with
        | nil =>
          simp only [val_nil] at h2
          have : n % 10 ≠ 0 := by omega
          simpa using this
        | cons y ys => simpa using h4

theorem wrapInt64_neg (n : Int) (h1 : -2 ^ 63 < n) (h2 : n < 0) : wrapInt64 (n * -1) = -n := by
  unfold wrapInt64
  norm_num at h1 ⊢
  omega

/-- Away from the most negative value the integer constructor is exact. -/
theorem fromInteger_spec (n : Int) (h1 : -2 ^ 63 < n) (h2 : n < 2 ^ 63) (fuel : Nat)
    (hfuel : 20 ≤ fuel) :
    ∃ r, fromInteger fuel n = .ok r ∧ toInt r = n ∧ Valid r := by
  obtain ⟨f, rfl⟩ : ∃ f, fuel = f + 1 := ⟨fuel - 1, by omega⟩
  have hpow : (2 : Nat) ^ 63 < 10 ^ f :=
    lt_of_lt_of_le (by norm_num) (Nat.pow_le_pow_right (by norm_num) (show 19 ≤ f by omega))
  unfold fromInteger
  by_cases h0 : n = 0
  · subst h0
    exact ⟨⟨[0], false⟩, by simp, by decide, by decide⟩
  · simp only [h0, if_false]
    by_cases hneg : n < 0
    · obtain ⟨m, hm⟩ : ∃ m : Nat, -n = (m : Int) := ⟨(-n).toNat, by omega⟩
      have hmlt : m < 2 ^ 63 := by
        have : (m : Int) < 2 ^ 63 := by omega
        exact_mod_cast this
      obtain ⟨out, g1, g2, g3, g4⟩ := fromIntegerLoop_spec f m [] (lt_trans hmlt hpow)
      have hmpos : 0 < m := by omega
      have hne : out ≠ [] := by
        intro h; rw [h] at g2; simp at g2; omega
      refine ⟨⟨out, true⟩, ?_, ?_, ⟨hne, g3, Or.inl g4⟩, ?_⟩
      · simp only [hneg, decide_True, if_true, wrapInt64_neg n h1 hneg]
        rw [hm, g1]
        rfl
      · simp only [toInt, if_true, g2]; omega
      · intro hz
        simp only at hz
        rw [hz] at g2; simp at g2; omega
    · obtain ⟨m, hm⟩ : ∃ m : Nat, n = (m : Int) := ⟨n.toNat, by omega⟩
      have hmlt : m < 2 ^ 63 := by
        have : (m : Int) < 2 ^ 63 := by omega
        exact_mod_cast this
      obtain ⟨out, g1, g2, g3, g4⟩ := fromIntegerLoop_spec f m [] (lt_trans hmlt hpow)
      have hmpos : 0 < m := by omega
      have hne : out ≠ [] := by
        intro h; rw [h] at g2; simp at g2; omega
      refine ⟨⟨out, false⟩, ?_, ?_, ⟨hne, g3, Or.inl g4⟩, fun _ => rfl⟩
      · simp only [hneg, decide_False, Bool.false_eq_true, if_false]
        rw [hm, g1]
        rfl
      · simp only [toInt, Bool.false_eq_true, if_false, g2]; omega

/-! ## Unary minus -/

theorem fromInteger_neg_one (fuel : Nat) :
    fromInteger (fuel + 2) (-1) = .ok { _value := [1], isNegative := true } := by
  rfl

/-- Unary minus on a valid operand: it returns, the result denotes the negated integer and
is valid. -/
theorem negate_spec {x : BigNum} (hx : Valid x) (fuel : Nat)
    (hfuel : x._value.length + 2 ≤ fuel) :
    ∃ r, negate fuel x = .ok r ∧ toInt r = -toInt x ∧ Valid r := by
  obtain ⟨f, rfl⟩ : ∃ f, fuel = f + 2 := ⟨fuel - 2, by omega⟩
  have hm : Valid { _value := [1], isNegative := true } := by decide
  obtain ⟨r, h1, h2, h3⟩ := mul_spec hm hx (f + 2) (by simp only [List.length_singleton]; omega)
  refine ⟨r, ?_, ?_, h3⟩
  · unfold negate
    rw [fromInteger_neg_one]
    exact h1
  · rw [h2]
    simp only [toInt, val, if_true]
    cases x.isNegative <;> simp

/-! ## The derived comparisons -/

theorem ne_ok (lhs rhs : BigNum) : ne lhs rhs = .ok (!decide (lhs = rhs)) := by
  unfold ne
  rw [eq_eq]
  rfl

theorem gt_ok {lhs rhs : BigNum} (hl : Valid lhs) (hr : Valid rhs) :
    gt lhs rhs = .ok (decide (toInt rhs < toInt lhs)) := by
  unfold gt
  rw [eq_eq, lt_eq hl hr]
  by_cases he : lhs = rhs
  · subst he
    simp [bind, Except.bind]
  · have hne : toInt lhs ≠ toInt rhs := fun h => he (hl.toInt_inj hr h)
    by_cases hlt : toInt lhs < toInt rhs
    · have : ¬ toInt rhs < toInt lhs := not_lt.mpr (le_of_lt hlt)
      simp [bind, Except.bind, he, hlt, this]
    · have : toInt rhs < toInt lhs := lt_of_le_of_ne (not_lt.mp hlt) (Ne.symm hne)
      simp [bind, Except.bind, he, hlt, this]

theorem le_ok {lhs rhs : BigNum} (hl : Valid lhs) (hr : Valid rhs) :
    le lhs rhs = .ok (decide (toInt lhs ≤ toInt rhs)) := by
  unfold le
  rw [gt_ok hl hr]
  by_cases h : toInt rhs < toInt lhs
  · simp [bind, Except.bind, h]
  · simp [bind, Except.bind, h, not_lt.mp h]

theorem ge_ok {lhs rhs : BigNum} (hl : Valid lhs) (hr : Valid rhs) :
    ge lhs rhs = .ok (decide (toInt rhs ≤ toInt lhs)) := by
  unfold ge
  rw [lt_eq hl hr]
  by_cases h : toInt lhs < toInt rhs
  · simp [bind, Except.bind, h]
  · simp [bind, Except.bind, h, not_lt.mp h]

/-! ## Unary minus, exactly -/

/-- Unary minus keeps the digits of a valid operand and flips its sign, except for zero. -/
theorem negate_eq {x : BigNum} (hx : Valid x) (fuel : Nat)
    (hfuel : x._value.length + 2 ≤ fuel) :
    negate fuel x =
      .ok ⟨x._value, if x._value = [0] then false else !x.isNegative⟩ := by
  obtain ⟨f, rfl⟩ : ∃ f, fuel = f + 2 := ⟨fuel - 2, by omega⟩
  obtain ⟨result, h1, h2, h3⟩ := @mul_eq ⟨[1], true⟩ x (by decide) hx.1.2.1 (f + 2)
    (by simp only [List.length_singleton]; omega)
  have hv : val result = val x._value := by
    rw [h1]; simp [val]
  have hn : normalize result = x._value :=
    Canonical.val_inj ⟨normalize_ne_nil _, normalize_digits h2, normalize_top _⟩ hx.1
      (by rw [val_normalize, hv])
  unfold negate
  rw [fromInteger_neg_one]
  simp only [bind, Except.bind]
  rw [h3, hn, hv]
  by_cases h0 : x._value = [0]
  · have : val x._value = 0 := hx.1.val_eq_zero_iff.mpr h0
    simp [h0, this]
  · have : val x._value ≠ 0 := fun h => h0 (hx.1.val_eq_zero_iff.mp h)
    simp [h0, this]

/-! ## The minuend that `operator-` selects -/

/-- For operands of the same sign `operator-` runs the borrow loop on the operand of larger
magnitude as minuend, and flags the result negative exactly when the difference is below
zero. -/
theorem sub_same_select {lhs rhs : BigNum} (hs : lhs.isNegative = rhs.isNegative)
    (hl : Valid lhs) (hr : Valid rhs) (fuel : Nat) :
    sub (fuel + 1) lhs rhs =
      (do
        let resultValues ← subLoop fuel
          (if (if lhs.isNegative then decide (val lhs._value ≤ val rhs._value)
              else decide (val lhs._value < val rhs._value)) then rhs._value else lhs._value)
          (if (if lhs.isNegative then decide (val lhs._value ≤ val rhs._value)
              else decide (val lhs._value < val rhs._value)) then lhs._value else rhs._value)
          0 0 []
        ofVector fuel resultValues
          (if lhs.isNegative then decide (val rhs._value < val lhs._value)
            else decide (val lhs._value < val rhs._value))) := by
  have hlt := lt_eq hl hr
  obtain ⟨lv, ln⟩ := lhs
  obtain ⟨rv, rn⟩ := rhs
  simp only at hs
  subst hs
  rw [sub_succ]
  cases ln
  · simp only [toInt, Bool.false_eq_true, if_false, Nat.cast_lt] at hlt ⊢
    simp only [Bool.false_and, Bool.not_false, Bool.and_false, Bool.false_eq_true, if_false,
      if_true, hlt, bind, Except.bind, pure, Except.pure]
    by_cases hc : val lv < val rv
    · simp only [hc, decide_True, if_true]
    · simp only [hc, decide_False, Bool.false_eq_true, if_false]
  · simp only [toInt, if_true, neg_lt_neg_iff, Nat.cast_lt] at hlt ⊢
    simp only [Bool.true_and, Bool.not_true, Bool.and_false, Bool.false_and,
      Bool.false_eq_true, if_false, if_true, hlt, bind, Except.bind, pure, Except.pure]
    by_cases hc : val rv < val lv
    · have hc2 : ¬ val lv ≤ val rv := by omega
      simp only [hc, hc2, decide_True, decide_False, if_true, Bool.not_true,
        Bool.false_eq_true, if_false]
    · have hc2 : val lv ≤ val rv := by omega
      simp only [hc, hc2, decide_True, decide_False, Bool.false_eq_true, if_false,
        Bool.not_false, if_true]

/-! ## The recorded loops -/

theorem addLoopTrace_fst (fuel : Nat) (lhs rhs : List Nat) (carry pos : Nat) (sums : List Nat) :
    (addLoopTrace fuel lhs rhs carry pos sums).map Prod.fst = addLoop fuel lhs rhs carry pos := by
  induction fuel generalizing lhs carry pos sums with
  | zero => rfl
  | succ fuel ih =>
    rw [addLoopTrace, addLoop]
    by_cases hgo : carry > 0 ∨ pos < lhs.length ∨ pos < rhs.length
    · rw [if_pos hgo, if_pos hgo, digitAt_eq, digitAt_eq]
      simp only [bind, Except.bind]
      exact ih _ _ _ _
    · rw [if_neg hgo, if_neg hgo]
      rfl

theorem set_digits {v : List Nat} (hv : ∀ d ∈ v, d < 10) (pos x : Nat) (hx : x < 10) :
    ∀ d ∈ (if pos < v.length then v.set pos x else v ++ [x]), d < 10 := by
  intro d hd
  split at hd
  · rcases List.mem_or_eq_of_mem_set hd with h | h
    · exact hv d h
    · rw [h]; exact hx
  · rcases List.mem_append.mp hd with h | h
    · exact hv d h
    · rw [List.mem_singleton.mp h]; exact hx

theorem add_sum_bound {c l r : Nat} (hc : c ≤ 1) (hl : l < 10) (hr : r < 10) :
    c + (l + r) ≤ 19 ∧ u8 (c + (l + r)) / 10 ≤ 1 ∧ u8 (c + (l + r)) % 10 < 10 := by
  unfold u8; omega

/-- In the carry loop on decimal digits the sum stored in `carry` never exceeds 19. -/
theorem addLoopTrace_bound (fuel : Nat) (lhs rhs : List Nat) (carry pos : Nat)
    (sums out record : List Nat) (hc : carry ≤ 1) (hl : ∀ d ∈ lhs, d < 10)
    (hr : ∀ d ∈ rhs, d < 10) (hs : ∀ s ∈ sums, s ≤ 19)
    (h : addLoopTrace fuel lhs rhs carry pos sums = .ok (out, record)) :
    ∀ s ∈ record, s ≤ 19 := by
  induction fuel generalizing lhs carry pos sums with
  | zero => rw [addLoopTrace] at h; cases h
  | succ fuel ih =>
    rw [addLoopTrace] at h
    by_cases hgo : carry > 0 ∨ pos < lhs.length ∨ pos < rhs.length
    · rw [if_pos hgo, digitAt_eq, digitAt_eq] at h
      simp only [bind, Except.bind] at h
      obtain ⟨b1, b2, b3⟩ := add_sum_bound hc (getD_lt_ten hl pos) (getD_lt_ten hr pos)
      refine ih _ _ _ _ b2 (set_digits hl pos _ b3) ?_ h
      intro s hs2
      rcases List.mem_append.mp hs2 with h1 | h1
      · exact hs s h1
      · rw [List.mem_singleton.mp h1]; exact b1
    · rw [if_neg hgo] at h
      cases h
      exact hs

theorem subLoopTrace_fst (fuel : Nat) (minuend subtrahend : List Nat) (pos borrowed : Nat)
    (resultValues : List Nat) (record : List (Nat × Nat × Int)) :
    (subLoopTrace fuel minuend subtrahend pos borrowed resultValues record).map Prod.fst =
      subLoop fuel minuend subtrahend pos borrowed resultValues := by
  induction fuel generalizing pos borrowed resultValues record with
  | zero => rfl
  | succ fuel ih =>
    rw [subLoopTrace, subLoop]
    by_cases hgo : borrowed > 0 ∨ pos < minuend.length ∨ pos < subtrahend.length
    · rw [if_pos hgo, if_pos hgo, digitAt_eq, digitAt_eq]
      simp only [bind, Except.bind]
      exact ih _ _ _ _
    · rw [if_neg hgo, if_neg hgo]
      rfl

theorem sub_digit_bound {m s b : Nat} (hm : m < 10) (hs : s < 10) (hb : b ≤ 1) :
    s + b ≤ 10 ∧ u8 (s + b) = s + b ∧
      (m < s + b → m + 10 ≤ 19 ∧ u8 (m + 10) = m + 10 ∧
        (0 : Int) ≤ ((m + 10 : Nat) : Int) - ((s + b : Nat) : Int) ∧
        ((m + 10 : Nat) : Int) - ((s + b : Nat) : Int) ≤ 9) ∧
      (¬ m < s + b → m ≤ 19 ∧ (0 : Int) ≤ (m : Int) - ((s + b : Nat) : Int) ∧
        (m : Int) - ((s + b : Nat) : Int) ≤ 9) := by
  unfold u8
  refine ⟨by omega, by omega, fun h => ⟨by omega, by omega, by omega, by omega⟩,
    fun h => ⟨by omega, by omega, by omega⟩⟩

/-- In the borrow loop on decimal digits no stored value wraps: the subtrahend digit with
the borrow is at most 10, the minuend digit after `+= 10` at most 19, and the difference
pushed is a digit. -/
theorem subLoopTrace_bound (fuel : Nat) (minuend subtrahend : List Nat) (pos borrowed : Nat)
    (resultValues out : List Nat) (record final : List (Nat × Nat × Int))
    (hb : borrowed ≤ 1) (hm : ∀ d ∈ minuend, d < 10) (hs : ∀ d ∈ subtrahend, d < 10)
    (hrec : ∀ e ∈ record, e.1 ≤ 10 ∧ e.2.1 ≤ 19 ∧ 0 ≤ e.2.2 ∧ e.2.2 ≤ 9)
    (h : subLoopTrace fuel minuend subtrahend pos borrowed resultValues record =
      .ok (out, final)) :
    ∀ e ∈ final, e.1 ≤ 10 ∧ e.2.1 ≤ 19 ∧ 0 ≤ e.2.2 ∧ e.2.2 ≤ 9 := by
  induction fuel generalizing pos borrowed resultValues record with
  | zero => rw [subLoopTrace] at h; cases h
  | succ fuel ih =>
    rw [subLoopTrace] at h
    by_cases hgo : borrowed > 0 ∨ pos < minuend.length ∨ pos < subtrahend.length
    · rw [if_pos hgo, digitAt_eq, digitAt_eq] at h
      simp only [bind, Except.bind] at h
      obtain ⟨b1, b2, b3, b4⟩ :=
        sub_digit_bound (getD_lt_ten hm pos) (getD_lt_ten hs pos) hb
      rw [b2] at h
      by_cases hlt : minuend.getD pos 0 < subtrahend.getD pos 0 + borrowed
      · obtain ⟨c1, c2, c3, c4⟩ := b3 hlt
        rw [show decide (minuend.getD pos 0 < subtrahend.getD pos 0 + borrowed) = true from
          decide_eq_true hlt] at h
        simp only [if_true, c2] at h
        refine ih _ _ _ _ (by decide) ?_ h
        intro e he
        rcases List.mem_append.mp he with h1 | h1
        · exact hrec e h1
        · rw [List.mem_singleton.mp h1]
          exact ⟨b1, c1, c3, c4⟩
      · obtain ⟨c1, c3, c4⟩ := b4 hlt
        rw [show decide (minuend.getD pos 0 < subtrahend.getD pos 0 + borrowed) = false from
          decide_eq_false hlt] at h
        simp only [Bool.false_eq_true, if_false] at h
        refine ih _ _ _ _ (Nat.zero_le _) ?_ h
        intro e he
        rcases List.mem_append.mp he with h1 | h1
        · exact hrec e h1
        · rw [List.mem_singleton.mp h1]
          exact ⟨b1, c1, c3, c4⟩
    · rw [if_neg hgo] at h
      cases h
      exact hrec

theorem map_fst_ok {α β : Type} {x : Except Error (α × β)} {a : α}
    (h : x.map Prod.fst = .ok a) : ∃ b, x = .ok (a, b) := by
  cases x with
  | error e => cases h
  | ok p =>
    obtain ⟨p1, p2⟩ := p
    have : p1 = a := by
      simp only [Except.map] at h
      cases h; rfl
    exact ⟨p2, by rw [this]⟩

/-! ## The borrow loop with the smaller magnitude as minuend -/

theorem diverge_step {m s b VM VS : Nat} (hm : m < 10) (hs : s < 10) (hb : b ≤ 1)
    (h : m + 10 * VM < s + 10 * VS + b) :
    u8 (s + b) = s + b ∧ (m < s + b → VM < VS + 1) ∧ (¬ m < s + b → VM < VS + 0) := by
  unfold u8
  exact ⟨by omega, fun _ => by omega, fun _ => by omega⟩

/-- With a minuend that is smaller than the subtrahend the borrow never clears and the
loop does not stop. -/
theorem subLoop_diverges (minuend subtrahend : List Nat) (hm : ∀ d ∈ minuend, d < 10)
    (hs : ∀ d ∈ subtrahend, d < 10) (fuel pos borrowed : Nat) (acc : List Nat)
    (hb : borrowed ≤ 1)
    (h : val (minuend.drop pos) < val (subtrahend.drop pos) + borrowed) :
    subLoop fuel minuend subtrahend pos borrowed acc = .error .outOfFuel := by
  induction fuel generalizing pos borrowed acc with
  | zero => rfl
  | succ fuel ih =>
    have hgo : borrowed > 0 ∨ pos < minuend.length ∨ pos < subtrahend.length := by
      rcases Nat.eq_zero_or_pos borrowed with h0 | h0
      · right; right
        by_contra hcon
        rw [List.drop_of_length_le (not_lt.mp hcon)] at h
        simp only [val_nil, h0] at h
        exact absurd h (by simp)
      · exact Or.inl h0
    rw [val_drop minuend pos, val_drop subtrahend pos] at h
    rw [subLoop, if_pos hgo, digitAt_eq, digitAt_eq]
    obtain ⟨b1, b2, b3⟩ := diverge_step (getD_lt_ten hm pos) (getD_lt_ten hs pos) hb h
    simp only [bind, Except.bind, b1]
    by_cases hlt : minuend.getD pos 0 < subtrahend.getD pos 0 + borrowed
    · rw [show decide (minuend.getD pos 0 < subtrahend.getD pos 0 + borrowed) = true from
        decide_eq_true hlt]
      simp only [if_true]
      exact ih _ _ _ (by decide) (b2 hlt)
    · rw [show decide (minuend.getD pos 0 < subtrahend.getD pos 0 + borrowed) = false from
        decide_eq_false hlt]
      simp only [Bool.false_eq_true, if_false]
      exact ih _ _ _ (Nat.zero_le _) (b3 hlt)

/-! ## The index scheme of `operator*` -/

/-- The products that the inner loop adds in one column are those of the spec's column
sum. -/
theorem sum_colProd_eq_schoolbook (lhs rhs : List Nat) (column : Nat) :
    ∑ j in Finset.range rhs.length, colProd lhs rhs column j =
      schoolbookColumn lhs rhs column := by
  unfold schoolbookColumn
  rw [Finset.sum_comm]
  apply Finset.sum_congr rfl
  intro j _
  unfold colProd
  by_cases h : j ≤ column ∧ column - j < lhs.length
  · rw [if_pos h, Finset.sum_eq_single (column - j)]
    · rw [if_pos (Nat.sub_add_cancel h.1)]
    · intro i _ hi
      rw [if_neg]
      intro hc
      exact hi (by omega)
    · intro hn
      exact absurd (Finset.mem_range.mpr h.2) hn
  · rw [if_neg h]
    symm
    apply Finset.sum_eq_zero
    intro i hi
    rw [if_neg]
    intro hc
    have := Finset.mem_range.mp hi
    exact h ⟨by omega, by omega⟩

/-- The state in which the inner loop reaches position `j` of column `c`: the row carry
slot holds at most 8, the product added to it keeps it at most 89, and the step does not
fail. -/
theorem mul_slot_bound (lhs rhs : List Nat) (hl : ∀ d ∈ lhs, d < 10) (hr : ∀ d ∈ rhs, d < 10)
    (c j : Nat) (hj : j < rhs.length) :
    ∃ result carry cil carry2 cil2,
      (List.range c).foldlM (mulColumn lhs rhs) ([], 0, List.replicate rhs.length 0) =
        .ok (result, carry, cil) ∧
      (List.range j).foldlM (mulStep lhs rhs c) (carry, cil) = .ok (carry2, cil2) ∧
      j < cil2.length ∧ cil2.getD j 0 ≤ 8 ∧
      cil2.getD j 0 + lhs.getD (c - j) 0 * rhs.getD j 0 ≤ 89 ∧
      ∃ next, mulStep lhs rhs c (carry2, cil2) j = .ok next := by
  obtain ⟨result, carry, cil, h1, _, _, h4, h5, _⟩ := mulOuter_spec lhs rhs hl hr c
  obtain ⟨carry2, new, g1, g2, g3, _⟩ :=
    mulInner_spec lhs rhs c carry cil hl hr h4 h5 j (le_of_lt hj)
  have hjc : j < cil.length := by rw [h4]; exact hj
  have hslot : cil.getD j 0 ≤ 8 := by
    rw [List.getD_eq_getElem?_getD, List.getElem?_eq_getElem hjc]
    exact h5 _ (List.getElem_mem hjc)
  have hdrop := drop_eq_getD_cons hjc
  have hget : (new ++ cil.drop j).getD j 0 = cil.getD j 0 := by
    rw [hdrop, ← g2, getD_append_length]
  have hstep := mulStep_eq lhs rhs c carry2 new (cil.drop (j + 1)) (cil.getD j 0) hl hr hslot
    (by rw [g2]; exact hj)
  rw [g2, ← hdrop] at hstep
  refine ⟨result, carry, cil, carry2, new ++ cil.drop j, h1, g1, ?_, ?_, ?_, _, hstep⟩
  · rw [List.length_append, List.length_drop, g2]; omega
  · rw [hget]; exact hslot
  · rw [hget]
    exact mul_digit_bound hslot (getD_lt_ten hl _) (getD_lt_ten hr _)

/-! ## Same-sign subtraction, step by step -/

theorem subLoop_short (minuend subtrahend : List Nat) (fuel pos borrowed : Nat)
    (acc : List Nat) (h : fuel ≤ max (minuend.length - pos) (subtrahend.length - pos)) :
    subLoop fuel minuend subtrahend pos borrowed acc = .error .outOfFuel := by
  induction fuel generalizing pos borrowed acc with
  | zero => rfl
  | succ fuel ih =>
    have hK : max (minuend.length - pos) (subtrahend.length - pos) ≠ 0 := by omega
    have hgo : borrowed > 0 ∨ pos < minuend.length ∨ pos < subtrahend.length :=
      go_of_max_sub_ne hK
    rw [max_sub_succ hK] at h
    rw [subLoop, if_pos hgo, digitAt_eq, digitAt_eq]
    simp only [bind, Except.bind]
    exact ih _ _ _ (Nat.le_of_succ_le_succ h)

/-- Same-sign subtraction: which operand is the minuend, that it is the larger one, what
the borrow loop returns and what sign the result gets. -/
theorem sub_same_run {a b : BigNum} (hs : a.isNegative = b.isNegative)
    (ha : Valid a) (hb : Valid b) (fuel : Nat)
    (hfuel : max a._value.length b._value.length + 1 ≤ fuel) :
    ∃ minuend subtrahend out,
      ((minuend = a._value ∧ subtrahend = b._value) ∨
        (minuend = b._value ∧ subtrahend = a._value)) ∧
      val subtrahend ≤ val minuend ∧
      sub (fuel + 1) a b =
        (do
          let resultValues ← subLoop fuel minuend subtrahend 0 0 []
          ofVector fuel resultValues
            (if a.isNegative then decide (val b._value < val a._value)
              else decide (val a._value < val b._value))) ∧
      subLoop fuel minuend subtrahend 0 0 [] = .ok out ∧
      (∀ d ∈ out, d < 10) ∧
      out.length = max a._value.length b._value.length ∧
      sub (fuel + 1) a b = .ok ⟨normalize out,
        if a.isNegative then decide (val b._value < val a._value)
        else decide (val a._value < val b._value)⟩ := by
  have hsel := sub_same_select hs ha hb fuel
  have key : ∀ minuend subtrahend : List Nat,
      ((minuend = a._value ∧ subtrahend = b._value) ∨
        (minuend = b._value ∧ subtrahend = a._value)) →
      val subtrahend ≤ val minuend →
      ∃ out, subLoop fuel minuend subtrahend 0 0 [] = .ok out ∧ (∀ d ∈ out, d < 10) ∧
        out.length = max a._value.length b._value.length := by
    intro minuend subtrahend hms hle
    have hdm : ∀ d ∈ minuend, d < 10 := by
      rcases hms with ⟨h, _⟩ | ⟨h, _⟩ <;> rw [h]
      · exact ha.1.2.1
      · exact hb.1.2.1
    have hds : ∀ d ∈ subtrahend, d < 10 := by
      rcases hms with ⟨_, h⟩ | ⟨_, h⟩ <;> rw [h]
      · exact hb.1.2.1
      · exact ha.1.2.1
    have hmax : max minuend.length subtrahend.length =
        max a._value.length b._value.length := by
      rcases hms with ⟨h1, h2⟩ | ⟨h1, h2⟩ <;> rw [h1, h2]
      exact Nat.max_comm _ _
    obtain ⟨out, h1, _, h3, h4⟩ :=
      subLoop_spec fuel minuend subtrahend 0 0 [] (Nat.zero_le _) hdm hds (by simpa using hle)
        (by simpa [hmax] using hfuel)
    refine ⟨out, by simpa using h1, h3, ?_⟩
    rw [h4]; simpa using hmax
  by_cases hrev : (if a.isNegative then decide (val a._value ≤ val b._value)
      else decide (val a._value < val b._value)) = true
  · rw [hrev] at hsel
    simp only [if_true] at hsel
    have hle : val a._value ≤ val b._value := by
      cases hn : a.isNegative
      · rw [hn] at hrev
        simp only [Bool.false_eq_true, if_false, decide_eq_true_eq] at hrev
        exact le_of_lt hrev
      · rw [hn] at hrev
        simpa using hrev
    obtain ⟨out, h1, h2, h3⟩ := key b._value a._value (Or.inr ⟨rfl, rfl⟩) hle
    refine ⟨b._value, a._value, out, Or.inr ⟨rfl, rfl⟩, hle, hsel, h1, h2, h3, ?_⟩
    rw [hsel, h1]
    simp only [bind, Except.bind]
    rw [ofVector_eq _ _ _ (by omega)]
  · have hrev2 := Bool.eq_false_iff.mpr hrev
    rw [hrev2] at hsel
    simp only [Bool.false_eq_true, if_false] at hsel
    have hle : val b._value ≤ val a._value := by
      cases hn : a.isNegative
      · rw [hn] at hrev2
        simp only [Bool.false_eq_true, if_false, decide_eq_false_iff_not] at hrev2
        omega
      · rw [hn] at hrev2
        simp only [if_true, decide_eq_false_iff_not] at hrev2
        omega
    obtain ⟨out, h1, h2, h3⟩ := key a._value b._value (Or.inl ⟨rfl, rfl⟩) hle
    refine ⟨a._value, b._value, out, Or.inl ⟨rfl, rfl⟩, hle, hsel, h1, h2, h3, ?_⟩
    rw [hsel, h1]
    simp only [bind, Except.bind]
    rw [ofVector_eq _ _ _ (by omega)]

/-! ## Rendering, character by character -/

theorem digitChar_eq_zero_iff (d : Nat) (h : d < 10) : Nat.digitChar d = '0' ↔ d = 0 := by
  interval_cases d <;> decide

theorem head_render (v : List Nat) :
    (v.reverse.map Nat.digitChar).head? = v.getLast?.map Nat.digitChar := by
  rw [List.head?_map, List.head?_reverse]

/-- Whatever the string constructor returns is valid. -/
theorem fromString_valid (fuel : Nat) (str : List Char) (hfuel : str.length + 2 ≤ fuel)
    (x : BigNum) (h : fromString fuel str = .ok x) : Valid x := by
  rw [fromString_eq fuel str hfuel] at h
  by_cases hrej : Rejected str
  · rw [if_pos hrej] at h; cases h
  · rw [if_neg hrej] at h
    cases h
    have hall : ∀ c ∈ numeral str, isdigit c = true := by
      intro c hc
      by_contra hc2
      exact hrej (Or.inr (Or.inr (Or.inr (Or.inl ⟨c, hc, by simpa using hc2⟩))))
    refine ⟨⟨normalize_ne_nil _, normalize_digits (digitsOf_lt _ hall), normalize_top _⟩, ?_⟩
    intro hz
    simp only at hz
    have h0 := (normalize_eq_zero_iff _).mp hz
    have hz2 := (val_digitsOf_eq_zero_iff _ hall).mp h0
    simp only [decide_eq_false_iff_not]
    intro hhead
    exact hrej (Or.inr (Or.inr (Or.inr (Or.inr ⟨hhead, hz2⟩))))

/-! ## The claims -/

/-- C1: for valid `a` and `b` (any signs, any lengths) `operator+` returns, and the
integer its result denotes is the sum of the integers denoted by `a` and `b`. -/
theorem C1_add_denotes_sum (a b : BigNum) (ha : Valid a) (hb : Valid b) (fuel : Nat)
    (hfuel : a._value.length + b._value.length + 4 ≤ fuel) :
    ∃ r, add fuel a b = .ok r ∧ toInt r = toInt a + toInt b := by
  obtain ⟨r, h1, h2, _⟩ := add_spec ha hb fuel hfuel
  exact ⟨r, h1, h2⟩

/-- C1 at `"999" + "1"`, which renders as `"1000"`. -/
theorem C1_add_witness :
    fromString 8 "999".toList = .ok ⟨[9, 9, 9], false⟩ ∧
    fromString 8 "1".toList = .ok ⟨[1], false⟩ ∧
    (∃ r, add 8 ⟨[9, 9, 9], false⟩ ⟨[1], false⟩ = .ok r ∧
      toInt r = toInt ⟨[9, 9, 9], false⟩ + toInt ⟨[1], false⟩) ∧
    (add 8 ⟨[9, 9, 9], false⟩ ⟨[1], false⟩).map toDecimalString = .ok "1000".toList :=
  ⟨by decide, by decide,
    C1_add_denotes_sum ⟨[9, 9, 9], false⟩ ⟨[1], false⟩ (by decide) (by decide) 8 (by decide),
    by decide⟩

/-- C2: for valid `a` and `b` (any signs, also `a` negative and `b` zero) binary
`operator-` returns, and the integer its result denotes is the difference of the integers
denoted by `a` and `b`. -/
theorem C2_sub_denotes_difference (a b : BigNum) (ha : Valid a) (hb : Valid b) (fuel : Nat)
    (hfuel : a._value.length + b._value.length + 4 ≤ fuel) :
    ∃ r, sub fuel a b = .ok r ∧ toInt r = toInt a - toInt b := by
  obtain ⟨r, h1, h2, _⟩ := sub_spec ha hb fuel hfuel
  exact ⟨r, h1, h2⟩

/-- C2 at `"100" - "999"`, which renders as `"-899"`, and at `-5 - 0`. -/
theorem C2_sub_witness :
    fromString 8 "100".toList = .ok ⟨[0, 0, 1], false⟩ ∧
    fromString 8 "999".toList = .ok ⟨[9, 9, 9], false⟩ ∧
    (∃ r, sub 10 ⟨[0, 0, 1], false⟩ ⟨[9, 9, 9], false⟩ = .ok r ∧
      toInt r = toInt ⟨[0, 0, 1], false⟩ - toInt ⟨[9, 9, 9], false⟩) ∧
    (sub 10 ⟨[0, 0, 1], false⟩ ⟨[9, 9, 9], false⟩).map toDecimalString = .ok "-899".toList ∧
    sub 10 ⟨[5], true⟩ ⟨[0], false⟩ = .ok ⟨[5], true⟩ :=
  ⟨by decide, by decide,
    C2_sub_denotes_difference ⟨[0, 0, 1], false⟩ ⟨[9, 9, 9], false⟩ (by decide) (by decide) 10
      (by decide),
    by decide, by decide⟩

/-- C3: for valid `a` and `b` (any lengths) `operator*` returns, the integer its result
denotes is the product of the integers denoted by `a` and `b`, and the column loop ends
with the digits of the product of the magnitudes and a running carry of zero. -/
theorem C3_mul_denotes_product (a b : BigNum) (ha : Valid a) (hb : Valid b) (fuel : Nat)
    (hfuel : a._value.length + b._value.length + 1 ≤ fuel) :
    (∃ r, mul fuel a b = .ok r ∧ toInt r = toInt a * toInt b) ∧
    (∃ resultValues carryInLine,
      (List.range (a._value.length + b._value.length)).foldlM
          (mulColumn a._value b._value) ([], 0, List.replicate b._value.length 0) =
        .ok (resultValues, 0, carryInLine) ∧
      val resultValues = val a._value * val b._value) := by
  constructor
  · obtain ⟨r, h1, h2, _⟩ := mul_spec ha hb fuel hfuel
    exact ⟨r, h1, h2⟩
  · obtain ⟨result, carry, cil, h1, _, _, h4, h5⟩ :=
      mulLoop_spec a._value b._value ha.1.2.1 hb.1.2.1
    subst h4
    exact ⟨result, cil, h1, h5⟩

/-- C3 at `"-12" * "34"`, which renders as `"-408"`. -/
theorem C3_mul_witness :
    fromString 8 "-12".toList = .ok ⟨[2, 1], true⟩ ∧
    fromString 8 "34".toList = .ok ⟨[4, 3], false⟩ ∧
    ((∃ r, mul 8 ⟨[2, 1], true⟩ ⟨[4, 3], false⟩ = .ok r ∧
        toInt r = toInt ⟨[2, 1], true⟩ * toInt ⟨[4, 3], false⟩) ∧
      (∃ resultValues carryInLine,
        (List.range 4).foldlM (mulColumn [2, 1] [4, 3]) ([], 0, List.replicate 2 0) =
          .ok (resultValues, 0, carryInLine) ∧
        val resultValues = val [2, 1] * val [4, 3])) ∧
    (mul 8 ⟨[2, 1], true⟩ ⟨[4, 3], false⟩).map toDecimalString = .ok "-408".toList :=
  ⟨by decide, by decide,
    C3_mul_denotes_product ⟨[2, 1], true⟩ ⟨[4, 3], false⟩ (by decide) (by decide) 8
      (by decide),
    by decide⟩

/-- C4: for valid `a` and `b` the results of `operator+`, `operator-`, `operator*` and
unary `operator-` exist and are valid, and every `BigNum` the string constructor returns
is valid: non-empty digits in 0..9, no most-significant zero except in `[0]`, and zero is
not negative. -/
theorem C4_producers_valid (a b : BigNum) (ha : Valid a) (hb : Valid b) (str : List Char)
    (fuel : Nat) (hfuel : a._value.length + b._value.length + 4 ≤ fuel)
    (hstr : str.length + 2 ≤ fuel) :
    (∃ r, add fuel a b = .ok r ∧ Valid r) ∧
    (∃ r, sub fuel a b = .ok r ∧ Valid r) ∧
    (∃ r, mul fuel a b = .ok r ∧ Valid r) ∧
    (∃ r, negate fuel a = .ok r ∧ Valid r) ∧
    (∀ x, fromString fuel str = .ok x → Valid x) := by
  refine ⟨?_, ?_, ?_, ?_, fromString_valid fuel str hstr⟩
  · obtain ⟨r, h1, _, h3⟩ := add_spec ha hb fuel hfuel
    exact ⟨r, h1, h3⟩
  · obtain ⟨r, h1, _, h3⟩ := sub_spec ha hb fuel hfuel
    exact ⟨r, h1, h3⟩
  · obtain ⟨r, h1, _, h3⟩ := mul_spec ha hb fuel (by omega)
    exact ⟨r, h1, h3⟩
  · obtain ⟨r, h1, _, h3⟩ := negate_spec ha fuel (by omega)
    exact ⟨r, h1, h3⟩

/-- C4 at `a = -5`, `b = 5` and the string `"-0012"`. -/
theorem C4_producers_witness :
    fromString 9 "-0012".toList = .ok ⟨[2, 1], true⟩ ∧
    ((∃ r, add 9 ⟨[5], true⟩ ⟨[5], false⟩ = .ok r ∧ Valid r) ∧
      (∃ r, sub 9 ⟨[5], true⟩ ⟨[5], false⟩ = .ok r ∧ Valid r) ∧
      (∃ r, mul 9 ⟨[5], true⟩ ⟨[5], false⟩ = .ok r ∧ Valid r) ∧
      (∃ r, negate 9 ⟨[5], true⟩ = .ok r ∧ Valid r) ∧
      (∀ x, fromString 9 "-0012".toList = .ok x → Valid x)) :=
  ⟨by decide,
    C4_producers_valid ⟨[5], true⟩ ⟨[5], false⟩ (by decide) (by decide) "-0012".toList 9
      (by decide) (by decide)⟩

/-- C5: the string constructor fails with `invalidArgument` exactly when the string is
empty, is a lone `+` or `-`, has a character after the optional sign that is not a decimal
digit, or is a `-` followed by zeros only; on every other string it succeeds. -/
theorem C5_fromString_fails_iff (str : List Char) (fuel : Nat)
    (hfuel : str.length + 2 ≤ fuel) :
    (fromString fuel str = .error .invalidArgument ↔
      (str = [] ∨ str = ['+'] ∨ str = ['-'] ∨ (∃ c ∈ numeral str, isdigit c = false) ∨
        (str.head? = some '-' ∧ ∀ c ∈ numeral str, c = '0'))) ∧
    (¬ (str = [] ∨ str = ['+'] ∨ str = ['-'] ∨ (∃ c ∈ numeral str, isdigit c = false) ∨
        (str.head? = some '-' ∧ ∀ c ∈ numeral str, c = '0')) →
      ∃ x, fromString fuel str = .ok x) := by
  have h := fromString_eq fuel str hfuel
  change (_ ↔ Rejected str) ∧ (¬ Rejected str → _)
  by_cases hrej : Rejected str
  · rw [if_pos hrej] at h
    exact ⟨⟨fun _ => hrej, fun _ => h⟩, fun hn => absurd hrej hn⟩
  · rw [if_neg hrej] at h
    refine ⟨⟨fun he => ?_, fun hr => absurd hr hrej⟩, fun _ => ⟨_, h⟩⟩
    rw [h] at he; cases he

/-- C5 at `"-0"`, `"-000"` (refused), `"+0"` and `"007"` (accepted). -/
theorem C5_fromString_witness :
    fromString 8 "-0".toList = .error .invalidArgument ∧
    fromString 8 "-000".toList = .error .invalidArgument ∧
    fromString 8 "+0".toList = .ok ⟨[0], false⟩ ∧
    fromString 8 "007".toList = .ok ⟨[7], false⟩ ∧
    (∃ x, fromString 8 "007".toList = .ok x) :=
  ⟨by decide, by decide, by decide, by decide,
    (C5_fromString_fails_iff "007".toList 8 (by decide)).2 (by decide)⟩

/-- C6: for a string `[+|-]d1...dk` with `k ≥ 1` decimal digits that is not a `-` followed
by zeros only, the string constructor returns the number whose digit sequence is the
digits read right-to-left with the most-significant zeros removed, which is negative
exactly when the string starts with `-`, and which denotes the integer the string
writes. -/
theorem C6_fromString_denotes (str : List Char) (hk : numeral str ≠ [])
    (hd : ∀ c ∈ numeral str, isdigit c = true)
    (hz : ¬ (str.head? = some '-' ∧ ∀ c ∈ numeral str, c = '0'))
    (fuel : Nat) (hfuel : str.length + 2 ≤ fuel) :
    ∃ x, fromString fuel str = .ok x ∧
      x._value = normalize (digitsOf (numeral str)) ∧
      (x.isNegative = true ↔ str.head? = some '-') ∧
      toInt x = (if str.head? = some '-' then -(decimalValue (numeral str) : Int)
        else (decimalValue (numeral str) : Int)) := by
  have hrej : ¬ Rejected str := by
    rintro (h | h | h | ⟨c, hc, hc2⟩ | h)
    · subst h; exact hk rfl
    · subst h; exact hk rfl
    · subst h; exact hk rfl
    · rw [hd c hc] at hc2; cases hc2
    · exact hz h
  have h := fromString_eq fuel str hfuel
  rw [if_neg hrej] at h
  refine ⟨_, h, rfl, by simp, ?_⟩
  simp only [toInt, val_normalize, val_digitsOf, decide_eq_true_eq]

/-- C6 at `"007"`, which is read as `[7]` and renders as `"7"`. -/
theorem C6_fromString_witness :
    (∃ x, fromString 8 "007".toList = .ok x ∧
      x._value = normalize (digitsOf (numeral "007".toList)) ∧
      (x.isNegative = true ↔ "007".toList.head? = some '-') ∧
      toInt x = (if "007".toList.head? = some '-' then
          -(decimalValue (numeral "007".toList) : Int)
        else (decimalValue (numeral "007".toList) : Int))) ∧
    normalize (digitsOf (numeral "007".toList)) = [7] ∧
    (fromString 8 "007".toList).map toDecimalString = .ok "7".toList :=
  ⟨C6_fromString_denotes "007".toList (by decide) (by decide) (by decide) 8 (by decide),
    by decide, by decide⟩

/-- C7: for every valid `x` the string constructor accepts what `operator<<` writes for `x`
and returns a number that `operator==` finds equal to `x`: the same sign flag and the same
digit sequence. -/
theorem C7_round_trip (x : BigNum) (hx : Valid x) (fuel : Nat)
    (hfuel : x._value.length + 3 ≤ fuel) :
    ∃ y, fromString fuel (toDecimalString x) = .ok y ∧ eq y x = .ok true ∧
      y.isNegative = x.isNegative ∧ y._value = x._value := by
  refine ⟨x, fromString_toDecimalString hx fuel hfuel, ?_, rfl, rfl⟩
  rw [eq_eq]; simp

/-- C7 at `x = -8990`. -/
theorem C7_round_trip_witness :
    toDecimalString ⟨[0, 9, 9, 8], true⟩ = "-8990".toList ∧
    ∃ y, fromString 8 (toDecimalString ⟨[0, 9, 9, 8], true⟩) = .ok y ∧
      eq y ⟨[0, 9, 9, 8], true⟩ = .ok true ∧
      y.isNegative = true ∧ y._value = [0, 9, 9, 8] :=
  ⟨by decide, C7_round_trip ⟨[0, 9, 9, 8], true⟩ (by decide) 8 (by decide)⟩

/-- C8: at the most negative 64-bit value the negation `n *= -1` wraps around to the same
value, the digit loop does not run, and the integer constructor returns a negative number
with an empty digit sequence, which is not valid and does not denote `-2^63`. -/
theorem C8_fromInteger_most_negative :
    wrapInt64 (-9223372036854775808 * -1) = -9223372036854775808 ∧
    (∀ fuel, fromInteger (fuel + 1) (-9223372036854775808) =
      .ok { _value := [], isNegative := true }) ∧
    ¬ Valid { _value := [], isNegative := true } ∧
    toInt { _value := [], isNegative := true } ≠ -9223372036854775808 := by
  have hw : wrapInt64 (-9223372036854775808 * -1) = -9223372036854775808 := by
    unfold wrapInt64; norm_num
  refine ⟨hw, ?_, by decide, by decide⟩
  intro fuel
  unfold fromInteger
  simp only [hw]
  rfl

/-- C9: for valid `a` and `b`, `operator<` returns true exactly when the integer denoted
by `a` is less than the integer denoted by `b`. -/
theorem C9_lt_iff (a b : BigNum) (ha : Valid a) (hb : Valid b) :
    ∃ r, lt a b = .ok r ∧ (r = true ↔ toInt a < toInt b) := by
  refine ⟨decide (toInt a < toInt b), lt_eq ha hb, ?_⟩
  simp

/-- C9 at `-12 < -7`. -/
theorem C9_lt_witness :
    lt ⟨[2, 1], true⟩ ⟨[7], true⟩ = .ok true ∧
    ∃ r, lt ⟨[2, 1], true⟩ ⟨[7], true⟩ = .ok r ∧
      (r = true ↔ toInt ⟨[2, 1], true⟩ < toInt ⟨[7], true⟩) :=
  ⟨by decide, C9_lt_iff ⟨[2, 1], true⟩ ⟨[7], true⟩ (by decide) (by decide)⟩

/-- C10: for valid `a` and `b`, `a < b`, `a == b` and `b < a` all return, and exactly one
of them returns true. -/
theorem C10_trichotomy (a b : BigNum) (ha : Valid a) (hb : Valid b) :
    ∃ l e g, lt a b = .ok l ∧ eq a b = .ok e ∧ lt b a = .ok g ∧
      ((l = true ∧ e = false ∧ g = false) ∨ (l = false ∧ e = true ∧ g = false) ∨
        (l = false ∧ e = false ∧ g = true)) := by
  refine ⟨_, _, _, lt_eq ha hb, eq_eq a b, lt_eq hb ha, ?_⟩
  rcases lt_trichotomy (toInt a) (toInt b) with h | h | h
  · left
    have hne : a ≠ b := fun he => by rw [he] at h; exact lt_irrefl _ h
    have h2 : ¬ toInt b < toInt a := not_lt.mpr (le_of_lt h)
    simp [h, hne, h2]
  · right; left
    have he : a = b := ha.toInt_inj hb h
    simp [he]
  · right; right
    have hne : a ≠ b := fun he => by rw [he] at h; exact lt_irrefl _ h
    have h2 : ¬ toInt a < toInt b := not_lt.mpr (le_of_lt h)
    simp [h, hne, h2]

/-- C10 at `a = -3`, `b = 20`. -/
theorem C10_trichotomy_witness :
    ∃ l e g, lt ⟨[3], true⟩ ⟨[0, 2], false⟩ = .ok l ∧ eq ⟨[3], true⟩ ⟨[0, 2], false⟩ = .ok e ∧
      lt ⟨[0, 2], false⟩ ⟨[3], true⟩ = .ok g ∧
      ((l = true ∧ e = false ∧ g = false) ∨ (l = false ∧ e = true ∧ g = false) ∨
        (l = false ∧ e = false ∧ g = true)) :=
  C10_trichotomy ⟨[3], true⟩ ⟨[0, 2], false⟩ (by decide) (by decide)

/-- C11: for valid `x`, `operator<<` writes a `-` exactly when `x` is negative, followed
by one decimal digit character per digit of `x`, most significant first; the digits write
the magnitude of `x`, the first digit is not `0` unless the whole output is `"0"`, and the
output is never `"-0"`. -/
theorem C11_toDecimalString_canonical (x : BigNum) (hx : Valid x) :
    toDecimalString x =
      (if x.isNegative then ['-'] else []) ++ x._value.reverse.map Nat.digitChar ∧
    ((toDecimalString x).head? = some '-' ↔ x.isNegative = true) ∧
    (∀ c ∈ x._value.reverse.map Nat.digitChar, isdigit c = true) ∧
    decimalValue (x._value.reverse.map Nat.digitChar) = val x._value ∧
    ((x._value.reverse.map Nat.digitChar).head? ≠ some '0' ∨ toDecimalString x = ['0']) ∧
    toDecimalString x ≠ ['-', '0'] := by
  have hd := hx.1.2.1
  have hs := toDecimalString_eq x hd
  obtain ⟨c, rest, hbody, hc1, hc2⟩ := head_map_digitChar x._value hx.1.1 hd
  have hzero : x._value = [0] → toDecimalString x = ['0'] := by
    intro h0
    rw [hs, hx.2 h0, h0]
    rfl
  have htop : (x._value.reverse.map Nat.digitChar).head? = some '0' → x._value = [0] := by
    intro h
    rw [head_render] at h
    rcases hx.1.2.2 with h1 | h1
    · exfalso
      cases hl : x._value.getLast? with
      | none => rw [hl] at h; cases h
      | some d =>
        rw [hl] at h h1
        simp only [Option.map_some', Option.some.injEq] at h
        have hmem : d ∈ x._value := List.mem_of_getLast?_eq_some hl
        have := (digitChar_eq_zero_iff d (hd d hmem)).mp h
        exact h1 (by rw [this])
    · exact h1
  refine ⟨hs, ?_, map_digitChar_isdigit x._value hd, ?_, ?_, ?_⟩
  · rw [hs, hbody]
    cases x.isNegative
    · simp [hc2]
    · simp
  · rw [← val_digitsOf, digitsOf_map_digitChar x._value hd]
  · by_cases h : (x._value.reverse.map Nat.digitChar).head? = some '0'
    · exact Or.inr (hzero (htop h))
    · exact Or.inl h
  · rw [hs]
    intro hcon
    cases hn : x.isNegative
    · rw [hn, hbody] at hcon
      simp only [Bool.false_eq_true, if_false, List.nil_append, List.cons.injEq] at hcon
      exact hc2 hcon.1
    · rw [hn] at hcon
      simp only [if_true, List.singleton_append, List.cons.injEq, true_and] at hcon
      have h0 := htop (by rw [hcon]; rfl)
      have := hx.2 h0
      rw [hn] at this
      cases this

/-- C11 at zero: the integer constructor at 0 and the string constructor at `"0"` give the
same number, which renders as `"0"`. -/
theorem C11_toDecimalString_witness :
    fromInteger 8 0 = .ok ⟨[0], false⟩ ∧ fromString 8 "0".toList = .ok ⟨[0], false⟩ ∧
    toDecimalString ⟨[0], false⟩ = "0".toList ∧
    (toDecimalString ⟨[0], false⟩ =
        (if (⟨[0], false⟩ : BigNum).isNegative then ['-'] else []) ++
          ([0] : List Nat).reverse.map Nat.digitChar ∧
      ((toDecimalString ⟨[0], false⟩).head? = some '-' ↔
        (⟨[0], false⟩ : BigNum).isNegative = true) ∧
      (∀ c ∈ ([0] : List Nat).reverse.map Nat.digitChar, isdigit c = true) ∧
      decimalValue (([0] : List Nat).reverse.map Nat.digitChar) = val [0] ∧
      ((([0] : List Nat).reverse.map Nat.digitChar).head? ≠ some '0' ∨
        toDecimalString ⟨[0], false⟩ = ['0']) ∧
      toDecimalString ⟨[0], false⟩ ≠ ['-', '0']) :=
  ⟨by decide, by decide, by decide, C11_toDecimalString_canonical ⟨[0], false⟩ (by decide)⟩

/-- C12: for valid `a` and `b` the derived comparisons return, `a > b` agrees with `b < a`,
`a <= b` with `a < b || a == b`, `a >= b` with `b <= a`, and `a != b` with `!(a == b)`. -/
theorem C12_derived_comparisons (a b : BigNum) (ha : Valid a) (hb : Valid b) :
    ∃ less equal greater lessEq greaterEq notEq lessRev lessEqRev,
      lt a b = .ok less ∧ eq a b = .ok equal ∧ gt a b = .ok greater ∧
      le a b = .ok lessEq ∧ ge a b = .ok greaterEq ∧ ne a b = .ok notEq ∧
      lt b a = .ok lessRev ∧ le b a = .ok lessEqRev ∧
      greater = lessRev ∧ lessEq = (less || equal) ∧ greaterEq = lessEqRev ∧
      notEq = !equal := by
  refine ⟨_, _, _, _, _, _, _, _, lt_eq ha hb, eq_eq a b, gt_ok ha hb, le_ok ha hb,
    ge_ok ha hb, ne_ok a b, lt_eq hb ha, le_ok hb ha, rfl, ?_, rfl, rfl⟩
  rcases lt_trichotomy (toInt a) (toInt b) with h | h | h
  · simp [h, le_of_lt h]
  · have he : a = b := ha.toInt_inj hb h
    simp [he]
  · have hne : a ≠ b := fun he => by rw [he] at h; exact lt_irrefl _ h
    have h1 : ¬ toInt a ≤ toInt b := not_le.mpr h
    have h2 : ¬ toInt a < toInt b := not_lt.mpr (le_of_lt h)
    simp [h1, h2, hne]

/-- C12 at `a = -3`, `b = 20`. -/
theorem C12_derived_witness :
    gt ⟨[3], true⟩ ⟨[0, 2], false⟩ = .ok false ∧ le ⟨[3], true⟩ ⟨[0, 2], false⟩ = .ok true ∧
    ge ⟨[3], true⟩ ⟨[0, 2], false⟩ = .ok false ∧ ne ⟨[3], true⟩ ⟨[0, 2], false⟩ = .ok true ∧
    ∃ less equal greater lessEq greaterEq notEq lessRev lessEqRev,
      lt ⟨[3], true⟩ ⟨[0, 2], false⟩ = .ok less ∧ eq ⟨[3], true⟩ ⟨[0, 2], false⟩ = .ok equal ∧
      gt ⟨[3], true⟩ ⟨[0, 2], false⟩ = .ok greater ∧
      le ⟨[3], true⟩ ⟨[0, 2], false⟩ = .ok lessEq ∧
      ge ⟨[3], true⟩ ⟨[0, 2], false⟩ = .ok greaterEq ∧
      ne ⟨[3], true⟩ ⟨[0, 2], false⟩ = .ok notEq ∧
      lt ⟨[0, 2], false⟩ ⟨[3], true⟩ = .ok lessRev ∧
      le ⟨[0, 2], false⟩ ⟨[3], true⟩ = .ok lessEqRev ∧
      greater = lessRev ∧ lessEq = (less || equal) ∧ greaterEq = lessEqRev ∧
      notEq = !equal :=
  ⟨by decide, by decide, by decide, by decide,
    C12_derived_comparisons ⟨[3], true⟩ ⟨[0, 2], false⟩ (by decide) (by decide)⟩

/-- C13: for valid `x`, unary `operator-` returns a number with the digit sequence of `x`,
with the opposite sign flag when `x` is not zero and the non-negative `[0]` when it is, and
negating that number again gives `x` back. -/
theorem C13_negate_flips_sign (x : BigNum) (hx : Valid x) (fuel : Nat)
    (hfuel : x._value.length + 2 ≤ fuel) :
    ∃ r, negate fuel x = .ok r ∧ r._value = x._value ∧
      (x._value ≠ [0] → r.isNegative = !x.isNegative) ∧
      (x._value = [0] → r = ⟨[0], false⟩) ∧
      negate fuel r = .ok x ∧ eq x x = .ok true := by
  have h1 := negate_eq hx fuel hfuel
  have hr : Valid ⟨x._value, if x._value = [0] then false else !x.isNegative⟩ := by
    refine ⟨hx.1, fun h0 => ?_⟩
    simp only at h0
    simp [h0]
  have h2 := negate_eq hr fuel hfuel
  refine ⟨_, h1, rfl, ?_, ?_, ?_, ?_⟩
  · intro hne; simp [hne]
  · intro h0; simp [h0]
  · rw [h2]
    obtain ⟨xv, xn⟩ := x
    by_cases h0 : xv = [0]
    · have := hx.2 h0
      simp only at this
      simp [h0, this]
    · simp [h0]
  · rw [eq_eq]; simp

/-- C13 at `x = -120` and at zero. -/
theorem C13_negate_witness :
    negate 8 ⟨[0, 2, 1], true⟩ = .ok ⟨[0, 2, 1], false⟩ ∧
    negate 8 ⟨[0], false⟩ = .ok ⟨[0], false⟩ ∧
    ∃ r, negate 8 ⟨[0, 2, 1], true⟩ = .ok r ∧ r._value = [0, 2, 1] ∧
      (([0, 2, 1] : List Nat) ≠ [0] → r.isNegative = !true) ∧
      (([0, 2, 1] : List Nat) = [0] → r = ⟨[0], false⟩) ∧
      negate 8 r = .ok ⟨[0, 2, 1], true⟩ ∧
      eq ⟨[0, 2, 1], true⟩ ⟨[0, 2, 1], true⟩ = .ok true :=
  ⟨by decide, by decide, C13_negate_flips_sign ⟨[0, 2, 1], true⟩ (by decide) 8 (by decide)⟩

/-- C14: for valid `a` and `b`, `a - b` and `a + (-b)` both return and `operator==` finds
them equal: the same sign flag and the same digit sequence. -/
theorem C14_sub_eq_add_negate (a b : BigNum) (ha : Valid a) (hb : Valid b) (fuel : Nat)
    (hfuel : a._value.length + b._value.length + 4 ≤ fuel) :
    ∃ difference negated sum, sub fuel a b = .ok difference ∧
      negate fuel b = .ok negated ∧ add fuel a negated = .ok sum ∧
      eq difference sum = .ok true ∧ difference.isNegative = sum.isNegative ∧
      difference._value = sum._value := by
  obtain ⟨d, d1, d2, d3⟩ := sub_spec ha hb fuel hfuel
  have n0 := negate_eq hb fuel (by omega)
  obtain ⟨n, n1, n2, n3⟩ := negate_spec hb fuel (by omega)
  have hlen : n._value.length = b._value.length := by
    rw [n0] at n1
    cases n1
    rfl
  obtain ⟨s, s1, s2, s3⟩ := add_spec ha n3 fuel (by rw [hlen]; exact hfuel)
  have hds : d = s := d3.toInt_inj s3 (by rw [d2, s2, n2]; ring)
  refine ⟨d, n, s, d1, n1, s1, ?_, by rw [hds], by rw [hds]⟩
  rw [eq_eq, hds]; simp

/-- C14 at `a = 100`, `b = 999`. -/
theorem C14_sub_witness :
    sub 10 ⟨[0, 0, 1], false⟩ ⟨[9, 9, 9], false⟩ = .ok ⟨[9, 9, 8], true⟩ ∧
    ∃ difference negated sum,
      sub 10 ⟨[0, 0, 1], false⟩ ⟨[9, 9, 9], false⟩ = .ok difference ∧
      negate 10 ⟨[9, 9, 9], false⟩ = .ok negated ∧
      add 10 ⟨[0, 0, 1], false⟩ negated = .ok sum ∧
      eq difference sum = .ok true ∧ difference.isNegative = sum.isNegative ∧
      difference._value = sum._value :=
  ⟨by decide,
    C14_sub_eq_add_negate ⟨[0, 0, 1], false⟩ ⟨[9, 9, 9], false⟩ (by decide) (by decide) 10
      (by decide)⟩

/-- C15: for valid `a` and `b`, `a + b` and `b + a` return and are equal under
`operator==`, and so are `a * b` and `b * a`. -/
theorem C15_commutativity (a b : BigNum) (ha : Valid a) (hb : Valid b) (fuel : Nat)
    (hfuel : a._value.length + b._value.length + 4 ≤ fuel) :
    (∃ r1 r2, add fuel a b = .ok r1 ∧ add fuel b a = .ok r2 ∧ eq r1 r2 = .ok true ∧
      r1 = r2) ∧
    (∃ r1 r2, mul fuel a b = .ok r1 ∧ mul fuel b a = .ok r2 ∧ eq r1 r2 = .ok true ∧
      r1 = r2) := by
  constructor
  · obtain ⟨r1, p1, p2, p3⟩ := add_spec ha hb fuel hfuel
    obtain ⟨r2, q1, q2, q3⟩ := add_spec hb ha fuel (by omega)
    have he : r1 = r2 := p3.toInt_inj q3 (by rw [p2, q2]; ring)
    refine ⟨r1, r2, p1, q1, ?_, he⟩
    rw [eq_eq, he]; simp
  · obtain ⟨r1, p1, p2, p3⟩ := mul_spec ha hb fuel (by omega)
    obtain ⟨r2, q1, q2, q3⟩ := mul_spec hb ha fuel (by omega)
    have he : r1 = r2 := p3.toInt_inj q3 (by rw [p2, q2]; ring)
    refine ⟨r1, r2, p1, q1, ?_, he⟩
    rw [eq_eq, he]; simp

/-- C15 at `a = -12`, `b = 345`. -/
theorem C15_commutativity_witness :
    add 9 ⟨[2, 1], true⟩ ⟨[5, 4, 3], false⟩ = .ok ⟨[3, 3, 3], false⟩ ∧
    mul 9 ⟨[2, 1], true⟩ ⟨[5, 4, 3], false⟩ = .ok ⟨[0, 4, 1, 4], true⟩ ∧
    ((∃ r1 r2, add 9 ⟨[2, 1], true⟩ ⟨[5, 4, 3], false⟩ = .ok r1 ∧
        add 9 ⟨[5, 4, 3], false⟩ ⟨[2, 1], true⟩ = .ok r2 ∧ eq r1 r2 = .ok true ∧ r1 = r2) ∧
      (∃ r1 r2, mul 9 ⟨[2, 1], true⟩ ⟨[5, 4, 3], false⟩ = .ok r1 ∧
        mul 9 ⟨[5, 4, 3], false⟩ ⟨[2, 1], true⟩ = .ok r2 ∧ eq r1 r2 = .ok true ∧ r1 = r2)) :=
  ⟨by decide, by decide,
    C15_commutativity ⟨[2, 1], true⟩ ⟨[5, 4, 3], false⟩ (by decide) (by decide) 9
      (by decide)⟩

/-- C16, as stated, fails at `a = b = -5`: the operands are negative and of equal magnitude,
yet `operator-` returns the non-negative zero, so "negative iff the magnitude of `a` is at
least that of `b`" does not hold. -/
theorem C16_sign_table_counterexample :
    Valid ⟨[5], true⟩ ∧ sub 8 ⟨[5], true⟩ ⟨[5], true⟩ = .ok ⟨[0], false⟩ ∧
    ¬ (∃ r, sub 8 ⟨[5], true⟩ ⟨[5], true⟩ = .ok r ∧
      (r.isNegative = true ↔ val [5] ≥ val [5])) := by
  have h : sub 8 ⟨[5], true⟩ ⟨[5], true⟩ = .ok ⟨[0], false⟩ := by decide
  refine ⟨by decide, h, ?_⟩
  rintro ⟨r, hr, hiff⟩
  rw [h] at hr
  cases hr
  have := hiff.mpr (le_refl _)
  cases this

/-- C16, amended: for valid `a` and `b` of the same sign `operator-` returns; when both are
non-negative the result is negative exactly when the magnitude of `a` is below that of
`b`, and when both are negative it is negative exactly when the magnitude of `a` is above
that of `b`. -/
theorem C16_sign_table (a b : BigNum) (ha : Valid a) (hb : Valid b)
    (hs : a.isNegative = b.isNegative) (fuel : Nat)
    (hfuel : a._value.length + b._value.length + 4 ≤ fuel) :
    ∃ r, sub fuel a b = .ok r ∧
      (a.isNegative = false → (r.isNegative = true ↔ val a._value < val b._value)) ∧
      (a.isNegative = true → (r.isNegative = true ↔ val b._value < val a._value)) := by
  obtain ⟨f, rfl⟩ : ∃ f, fuel = f + 1 := ⟨fuel - 1, by omega⟩
  obtain ⟨_, _, out, _, _, _, _, _, _, h⟩ := sub_same_run hs ha hb f (by omega)
  refine ⟨_, h, ?_, ?_⟩
  · intro hn; simp [hn]
  · intro hn; simp [hn]

/-- C16 (amended) at `a = -5`, `b = -7`: the magnitude of `a` is smaller, the result `2` is
not negative. -/
theorem C16_sign_table_witness :
    sub 8 ⟨[5], true⟩ ⟨[7], true⟩ = .ok ⟨[2], false⟩ ∧
    ∃ r, sub 8 ⟨[5], true⟩ ⟨[7], true⟩ = .ok r ∧
      ((⟨[5], true⟩ : BigNum).isNegative = false →
        (r.isNegative = true ↔ val [5] < val [7])) ∧
      ((⟨[5], true⟩ : BigNum).isNegative = true →
        (r.isNegative = true ↔ val [7] < val [5])) :=
  ⟨by decide, C16_sign_table ⟨[5], true⟩ ⟨[7], true⟩ (by decide) (by decide) rfl 8 (by decide)⟩

/-- C17, as stated, fails at the digits `[0, 0]` with a negative sign: the private
constructor strips them to `[0]` and keeps the sign flag, it does not force it to
non-negative. -/
theorem C17_normalization_counterexample :
    ofVector 4 [0, 0] true = .ok ⟨[0], true⟩ ∧ ofVector 4 [] true = .ok ⟨[0], true⟩ ∧
    ¬ (∃ r, ofVector 4 [0, 0] true = .ok r ∧ (r._value = [0] → r.isNegative = false)) := by
  have h : ofVector 4 [0, 0] true = .ok ⟨[0], true⟩ := by decide
  refine ⟨h, by decide, ?_⟩
  rintro ⟨r, hr, himp⟩
  rw [h] at hr
  cases hr
  have := himp rfl
  cases this

/-- C17, amended: for every digit sequence and sign flag the private constructor returns
the sequence with its most-significant zeros stripped, or `[0]` when nothing is left: the
result is never empty, has no most-significant zero unless it is `[0]`, and writes the same
number; the sign flag is the one passed in, unchanged. -/
theorem C17_normalization (value : List Nat) (isNeg : Bool) (fuel : Nat)
    (hfuel : value.length < fuel) :
    ∃ r, ofVector fuel value isNeg = .ok r ∧
      r._value = (if stripZeros value = [] then [0] else stripZeros value) ∧
      stripZeros value <+: value ∧
      r._value ≠ [] ∧ (r._value.getLast? ≠ some 0 ∨ r._value = [0]) ∧
      val r._value = val value ∧ r.isNegative = isNeg := by
  refine ⟨_, ofVector_eq fuel value isNeg hfuel, ?_, stripZeros_initial value,
    normalize_ne_nil value, normalize_top value, val_normalize value, rfl⟩
  simp only [normalize, List.isEmpty_iff]

/-- C17 (amended) at the digits `[7, 0, 0]` with a negative sign. -/
theorem C17_normalization_witness :
    ofVector 4 [7, 0, 0] true = .ok ⟨[7], true⟩ ∧
    ∃ r, ofVector 4 [7, 0, 0] true = .ok r ∧
      r._value = (if stripZeros [7, 0, 0] = [] then [0] else stripZeros [7, 0, 0]) ∧
      stripZeros [7, 0, 0] <+: [7, 0, 0] ∧
      r._value ≠ [] ∧ (r._value.getLast? ≠ some 0 ∨ r._value = [0]) ∧
      val r._value = val [7, 0, 0] ∧ r.isNegative = true :=
  ⟨by decide, C17_normalization [7, 0, 0] true 4 (by decide)⟩

/-- C18: in `operator*`, for digit sequences `lhs` and `rhs` of any lengths, a column `c`
and a position `j` of `rhs`: the guard of the inner loop admits `j` exactly when `j ≤ c`
and `c - j < len(lhs)`; when it does, `(c - j) % len(lhs)` is `c - j`; the step then adds
`lhs[c - j] * rhs[j]` to the row carry slot `j` and nothing otherwise; and over a whole
column the products added are those of the pairs `(i, j)` with `i + j = c`, each once. -/
theorem C18_schoolbook_indexing (lhs rhs : List Nat) (hl : ∀ d ∈ lhs, d < 10)
    (hr : ∀ d ∈ rhs, d < 10) (c j : Nat) (hj : j < rhs.length) :
    ((!(decide (j > c) || (decide (c ≥ lhs.length) && decide (c - lhs.length ≥ j)))) = true ↔
      (j ≤ c ∧ c - j < lhs.length)) ∧
    ((j ≤ c ∧ c - j < lhs.length) → (c - j) % lhs.length = c - j) ∧
    colProd lhs rhs c j =
      (if j ≤ c ∧ c - j < lhs.length then lhs.getD (c - j) 0 * rhs.getD j 0 else 0) ∧
    (∀ carry slot : Nat, ∀ before after : List Nat, before.length = j → slot ≤ 8 →
      mulStep lhs rhs c (carry, before ++ slot :: after) j =
        .ok (carry + (slot + colProd lhs rhs c j) % 10,
          before ++ ((slot + colProd lhs rhs c j) / 10) :: after)) ∧
    (∀ (resultValues : List Nat) (carry : Nat) (carryInLine : List Nat),
      carryInLine.length = rhs.length → (∀ d ∈ carryInLine, d ≤ 8) →
      ∃ total new, mulColumn lhs rhs (resultValues, carry, carryInLine) c =
          .ok (resultValues ++ [total % 10], total / 10, new) ∧
        total + 10 * new.sum = carry + carryInLine.sum + schoolbookColumn lhs rhs c) ∧
    ∑ k in Finset.range rhs.length, colProd lhs rhs c k = schoolbookColumn lhs rhs c := by
  refine ⟨guard_iff c j lhs.length, fun h => Nat.mod_eq_of_lt h.2, rfl, ?_, ?_,
    sum_colProd_eq_schoolbook lhs rhs c⟩
  · intro carry slot before after hlen hslot
    have := mulStep_eq lhs rhs c carry before after slot hl hr hslot (by rw [hlen]; exact hj)
    rw [hlen] at this
    exact this
  · intro resultValues carry carryInLine hlen hc
    obtain ⟨total, new, h1, _, _, h4⟩ :=
      mulColumn_spec lhs rhs c carry resultValues carryInLine hl hr hlen hc
    rw [sum_colProd_eq_schoolbook] at h4
    exact ⟨total, new, h1, h4⟩

/-- C18 at `lhs = 12` (digits `[2, 1]`), `rhs = 345` (digits `[5, 4, 3]`), column 2,
position 1: the pair is `lhs[1] * rhs[1]`. -/
theorem C18_schoolbook_witness :
    schoolbookColumn [2, 1] [5, 4, 3] 2 = 10 ∧ colProd [2, 1] [5, 4, 3] 2 1 = 4 ∧
    colProd [2, 1] [5, 4, 3] 2 0 = 0 ∧
    (((!(decide (1 > 2) ||
          (decide (2 ≥ [2, 1].length) && decide (2 - [2, 1].length ≥ 1)))) = true ↔
        (1 ≤ 2 ∧ 2 - 1 < [2, 1].length)) ∧
      ((1 ≤ 2 ∧ 2 - 1 < [2, 1].length) → (2 - 1) % [2, 1].length = 2 - 1) ∧
      colProd [2, 1] [5, 4, 3] 2 1 =
        (if 1 ≤ 2 ∧ 2 - 1 < [2, 1].length then
          ([2, 1] : List Nat).getD (2 - 1) 0 * ([5, 4, 3] : List Nat).getD 1 0 else 0) ∧
      (∀ carry slot : Nat, ∀ before after : List Nat, before.length = 1 → slot ≤ 8 →
        mulStep [2, 1] [5, 4, 3] 2 (carry, before ++ slot :: after) 1 =
          .ok (carry + (slot + colProd [2, 1] [5, 4, 3] 2 1) % 10,
            before ++ ((slot + colProd [2, 1] [5, 4, 3] 2 1) / 10) :: after)) ∧
      (∀ (resultValues : List Nat) (carry : Nat) (carryInLine : List Nat),
        carryInLine.length = [5, 4, 3].length → (∀ d ∈ carryInLine, d ≤ 8) →
        ∃ total new, mulColumn [2, 1] [5, 4, 3] (resultValues, carry, carryInLine) 2 =
            .ok (resultValues ++ [total % 10], total / 10, new) ∧
          total + 10 * new.sum =
            carry + carryInLine.sum + schoolbookColumn [2, 1] [5, 4, 3] 2) ∧
      ∑ k in Finset.range [5, 4, 3].length, colProd [2, 1] [5, 4, 3] 2 k =
        schoolbookColumn [2, 1] [5, 4, 3] 2) :=
  ⟨by decide, by decide, by decide,
    C18_schoolbook_indexing [2, 1] [5, 4, 3] (by decide) (by decide) 2 1 (by decide)⟩

/-- C19: on valid `a` and `b` the operations `+`, `-`, `*`, `==` and `<` all return a
value (no element access is out of range, no modulus is zero); in the carry loop the sum
stored in `carry` is at most 19; in the borrow loop, run with the larger magnitude as
minuend, the subtrahend digit with the borrow is at most 10, the minuend digit after
`+= 10` at most 19 and the pushed difference is in 0..9; and in `operator*` every inner
step is reached with a row carry slot of at most 8, leaves it at most 89 after the product
is added, and does not fail. -/
theorem C19_no_failure (a b : BigNum) (ha : Valid a) (hb : Valid b) (fuel : Nat)
    (hfuel : a._value.length + b._value.length + 4 ≤ fuel) :
    ((∃ r, add fuel a b = .ok r) ∧ (∃ r, sub fuel a b = .ok r) ∧
      (∃ r, mul fuel a b = .ok r) ∧ (∃ r, eq a b = .ok r) ∧ (∃ r, lt a b = .ok r)) ∧
    (∃ out sums, addLoopTrace fuel a._value b._value 0 0 [] = .ok (out, sums) ∧
      addLoop fuel a._value b._value 0 0 = .ok out ∧ ∀ s ∈ sums, s ≤ 19) ∧
    (∀ minuend subtrahend : List Nat,
      ((minuend = a._value ∧ subtrahend = b._value) ∨
        (minuend = b._value ∧ subtrahend = a._value)) →
      val subtrahend ≤ val minuend →
      ∃ out record, subLoopTrace fuel minuend subtrahend 0 0 [] [] = .ok (out, record) ∧
        subLoop fuel minuend subtrahend 0 0 [] = .ok out ∧
        ∀ e ∈ record, e.1 ≤ 10 ∧ e.2.1 ≤ 19 ∧ 0 ≤ e.2.2 ∧ e.2.2 ≤ 9) ∧
    (∀ c j : Nat, j < b._value.length →
      ∃ resultValues carry carryInLine carry2 carryInLine2,
        (List.range c).foldlM (mulColumn a._value b._value)
            ([], 0, List.replicate b._value.length 0) =
          .ok (resultValues, carry, carryInLine) ∧
        (List.range j).foldlM (mulStep a._value b._value c) (carry, carryInLine) =
          .ok (carry2, carryInLine2) ∧
        j < carryInLine2.length ∧ carryInLine2.getD j 0 ≤ 8 ∧
        carryInLine2.getD j 0 + a._value.getD (c - j) 0 * b._value.getD j 0 ≤ 89 ∧
        ∃ next, mulStep a._value b._value c (carry2, carryInLine2) j = .ok next) := by
  refine ⟨⟨?_, ?_, ?_, ⟨_, eq_eq a b⟩, ⟨_, lt_eq ha hb⟩⟩, ?_, ?_, ?_⟩
  · obtain ⟨r, h, _⟩ := add_spec ha hb fuel hfuel
    exact ⟨r, h⟩
  · obtain ⟨r, h, _⟩ := sub_spec ha hb fuel hfuel
    exact ⟨r, h⟩
  · obtain ⟨r, h, _⟩ := mul_spec ha hb fuel (by omega)
    exact ⟨r, h⟩
  · obtain ⟨out, h1, _⟩ := addLoop_spec fuel [] a._value b._value 0 (Nat.zero_le _)
      ha.1.2.1 hb.1.2.1 (by simp only [List.length_nil, Nat.sub_zero]; omega)
    simp only [List.nil_append, List.length_nil] at h1
    obtain ⟨sums, h2⟩ := map_fst_ok
      ((addLoopTrace_fst fuel a._value b._value 0 0 []).trans h1)
    exact ⟨out, sums, h2, h1,
      addLoopTrace_bound fuel a._value b._value 0 0 [] out sums (Nat.zero_le _) ha.1.2.1
        hb.1.2.1 (by simp) h2⟩
  · intro minuend subtrahend hms hle
    have hdm : ∀ d ∈ minuend, d < 10 := by
      rcases hms with ⟨h, _⟩ | ⟨h, _⟩ <;> rw [h]
      · exact ha.1.2.1
      · exact hb.1.2.1
    have hds : ∀ d ∈ subtrahend, d < 10 := by
      rcases hms with ⟨_, h⟩ | ⟨_, h⟩ <;> rw [h]
      · exact hb.1.2.1
      · exact ha.1.2.1
    have hlen : max minuend.length subtrahend.length + 1 ≤ fuel := by
      rcases hms with ⟨h1, h2⟩ | ⟨h1, h2⟩ <;> rw [h1, h2] <;> omega
    obtain ⟨out, h1, _⟩ :=
      subLoop_spec fuel minuend subtrahend 0 0 [] (Nat.zero_le _) hdm hds (by simpa using hle)
        (by simpa using hlen)
    simp only [List.nil_append] at h1
    obtain ⟨record, h2⟩ := map_fst_ok
      ((subLoopTrace_fst fuel minuend subtrahend 0 0 [] []).trans h1)
    exact ⟨out, record, h2, h1,
      subLoopTrace_bound fuel minuend subtrahend 0 0 [] out [] record (Nat.zero_le _) hdm hds
        (by simp) h2⟩
  · intro c j hj
    exact mul_slot_bound a._value b._value ha.1.2.1 hb.1.2.1 c j hj

/-- C19 at `a = 999`, `b = 99`. -/
theorem C19_no_failure_witness :
    addLoopTrace 9 [9, 9, 9] [9, 9] 0 0 [] = .ok ([8, 9, 0, 1], [18, 19, 10, 1]) ∧
    subLoopTrace 9 [9, 9, 9] [9, 9] 0 0 [] [] =
      .ok ([0, 0, 9], [(9, 9, 0), (9, 9, 0), (0, 9, 9)]) ∧
    (((∃ r, add 9 ⟨[9, 9, 9], false⟩ ⟨[9, 9], false⟩ = .ok r) ∧
        (∃ r, sub 9 ⟨[9, 9, 9], false⟩ ⟨[9, 9], false⟩ = .ok r) ∧
        (∃ r, mul 9 ⟨[9, 9, 9], false⟩ ⟨[9, 9], false⟩ = .ok r) ∧
        (∃ r, eq ⟨[9, 9, 9], false⟩ ⟨[9, 9], false⟩ = .ok r) ∧
        (∃ r, lt ⟨[9, 9, 9], false⟩ ⟨[9, 9], false⟩ = .ok r)) ∧
      (∃ out sums, addLoopTrace 9 [9, 9, 9] [9, 9] 0 0 [] = .ok (out, sums) ∧
        addLoop 9 [9, 9, 9] [9, 9] 0 0 = .ok out ∧ ∀ s ∈ sums, s ≤ 19) ∧
      (∀ minuend subtrahend : List Nat,
        ((minuend = [9, 9, 9] ∧ subtrahend = [9, 9]) ∨
          (minuend = [9, 9] ∧ subtrahend = [9, 9, 9])) →
        val subtrahend ≤ val minuend →
        ∃ out record, subLoopTrace 9 minuend subtrahend 0 0 [] [] = .ok (out, record) ∧
          subLoop 9 minuend subtrahend 0 0 [] = .ok out ∧
          ∀ e ∈ record, e.1 ≤ 10 ∧ e.2.1 ≤ 19 ∧ 0 ≤ e.2.2 ∧ e.2.2 ≤ 9) ∧
      (∀ c j : Nat, j < [9, 9].length →
        ∃ resultValues carry carryInLine carry2 carryInLine2,
          (List.range c).foldlM (mulColumn [9, 9, 9] [9, 9])
              ([], 0, List.replicate [9, 9].length 0) =
            .ok (resultValues, carry, carryInLine) ∧
          (List.range j).foldlM (mulStep [9, 9, 9] [9, 9] c) (carry, carryInLine) =
            .ok (carry2, carryInLine2) ∧
          j < carryInLine2.length ∧ carryInLine2.getD j 0 ≤ 8 ∧
          carryInLine2.getD j 0 +
            ([9, 9, 9] : List Nat).getD (c - j) 0 * ([9, 9] : List Nat).getD j 0 ≤ 89 ∧
          ∃ next, mulStep [9, 9, 9] [9, 9] c (carry2, carryInLine2) j = .ok next)) :=
  ⟨by decide, by decide,
    C19_no_failure ⟨[9, 9, 9], false⟩ ⟨[9, 9], false⟩ (by decide) (by decide) 9 (by decide)⟩

/-- C20: for valid `a` and `b` of the same sign, the operand that `operator-` takes as
minuend has a magnitude that is not smaller than the subtrahend's; the borrow loop on them
returns, with exactly `max(len(a), len(b))` digits pushed, one per iteration; it does not
return on fewer loop tests than that plus one; and with the smaller magnitude as minuend
it never returns. -/
theorem C20_borrow_loop_terminates (a b : BigNum) (ha : Valid a) (hb : Valid b)
    (hs : a.isNegative = b.isNegative) (fuel : Nat)
    (hfuel : max a._value.length b._value.length + 1 ≤ fuel) :
    ∃ minuend subtrahend out,
      ((minuend = a._value ∧ subtrahend = b._value) ∨
        (minuend = b._value ∧ subtrahend = a._value)) ∧
      val subtrahend ≤ val minuend ∧
      sub (fuel + 1) a b =
        (do
          let resultValues ← subLoop fuel minuend subtrahend 0 0 []
          ofVector fuel resultValues
            (if a.isNegative then decide (val b._value < val a._value)
              else decide (val a._value < val b._value))) ∧
      subLoop fuel minuend subtrahend 0 0 [] = .ok out ∧
      out.length = max a._value.length b._value.length ∧
      subLoop (max a._value.length b._value.length) minuend subtrahend 0 0 [] =
        .error .outOfFuel ∧
      (val subtrahend < val minuend →
        ∀ n, subLoop n subtrahend minuend 0 0 [] = .error .outOfFuel) := by
  obtain ⟨minuend, subtrahend, out, h1, h2, h3, h4, _, h6, _⟩ := sub_same_run hs ha hb fuel hfuel
  have hdm : ∀ d ∈ minuend, d < 10 := by
    rcases h1 with ⟨h, _⟩ | ⟨h, _⟩ <;> rw [h]
    · exact ha.1.2.1
    · exact hb.1.2.1
  have hds : ∀ d ∈ subtrahend, d < 10 := by
    rcases h1 with ⟨_, h⟩ | ⟨_, h⟩ <;> rw [h]
    · exact hb.1.2.1
    · exact ha.1.2.1
  have hmax : max a._value.length b._value.length =
      max (minuend.length - 0) (subtrahend.length - 0) := by
    rcases h1 with ⟨p, q⟩ | ⟨p, q⟩ <;> rw [p, q] <;> simp [Nat.max_comm]
  refine ⟨minuend, subtrahend, out, h1, h2, h3, h4, h6, ?_, ?_⟩
  · exact subLoop_short minuend subtrahend _ 0 0 [] (le_of_eq hmax)
  · intro hlt n
    exact subLoop_diverges subtrahend minuend hds hdm n 0 0 [] (Nat.zero_le _)
      (by simpa using hlt)

/-- C20 at `a = 100`, `b = 999`: the minuend is `b`, three digits are pushed. -/
theorem C20_borrow_loop_witness :
    subLoop 4 [9, 9, 9] [0, 0, 1] 0 0 [] = .ok [9, 9, 8] ∧
    subLoop 3 [9, 9, 9] [0, 0, 1] 0 0 [] = .error .outOfFuel ∧
    subLoop 50 [0, 0, 1] [9, 9, 9] 0 0 [] = .error .outOfFuel ∧
    ∃ minuend subtrahend out,
      ((minuend = [0, 0, 1] ∧ subtrahend = [9, 9, 9]) ∨
        (minuend = [9, 9, 9] ∧ subtrahend = [0, 0, 1])) ∧
      val subtrahend ≤ val minuend ∧
      sub (4 + 1) ⟨[0, 0, 1], false⟩ ⟨[9, 9, 9], false⟩ =
        (do
          let resultValues ← subLoop 4 minuend subtrahend 0 0 []
          ofVector 4 resultValues
            (if (⟨[0, 0, 1], false⟩ : BigNum).isNegative then
              decide (val [9, 9, 9] < val [0, 0, 1])
              else decide (val [0, 0, 1] < val [9, 9, 9]))) ∧
      subLoop 4 minuend subtrahend 0 0 [] = .ok out ∧
      out.length = max [0, 0, 1].length [9, 9, 9].length ∧
      subLoop (max [0, 0, 1].length [9, 9, 9].length) minuend subtrahend 0 0 [] =
        .error .outOfFuel ∧
      (val subtrahend < val minuend →
        ∀ n, subLoop n subtrahend minuend 0 0 [] = .error .outOfFuel) :=
  ⟨by decide, by decide, by decide,
    C20_borrow_loop_terminates ⟨[0, 0, 1], false⟩ ⟨[9, 9, 9], false⟩ (by decide) (by decide)
      rfl 4 (by decide)⟩

end Bignum
